import Mathlib

/-!
# serial-url-scanner: line normalisation and URL extraction

A shallow embedding of `clean`, `processScannedLine` and `isValidURL` from
`main.go`, together with the parts of the Go standard library they call
(`unicode/utf8`, `unicode`, `strings`, `regexp`, `net/url`).

A Go `string` is a sequence of bytes; it is embedded as a `List Nat` whose
elements are the byte values.  Runes are natural numbers.  A run-time panic
(a slice expression out of range) is the value `none`.
-/

namespace Serial

/-- A Go string: its bytes, in order. -/
abbrev Str := List Nat

/-! ## unicode/utf8 -/

/-- The rune `utf8.RuneError` (U+FFFD). -/
def RuneError : Nat := 0xFFFD

/-- The bound `utf8.RuneSelf`: bytes below it are single-byte runes. -/
def RuneSelf : Nat := 0x80

/-- The largest code point, `unicode.MaxRune`. -/
def MaxRune : Nat := 0x10FFFF

/-- The table `utf8.first` joined with `utf8.acceptRanges`: for a leading byte
of a multi-byte sequence, the length of the sequence and the accepted range of
its second byte; `none` for the entries `as` (ASCII) and `xx` (invalid). -/
def first (s0 : Nat) : Option (Nat × Nat × Nat) :=
  if 0xC2 ≤ s0 ∧ s0 ≤ 0xDF then some (2, 0x80, 0xBF)
  else if s0 = 0xE0 then some (3, 0xA0, 0xBF)
  else if 0xE1 ≤ s0 ∧ s0 ≤ 0xEC then some (3, 0x80, 0xBF)
  else if s0 = 0xED then some (3, 0x80, 0x9F)
  else if 0xEE ≤ s0 ∧ s0 ≤ 0xEF then some (3, 0x80, 0xBF)
  else if s0 = 0xF0 then some (4, 0x90, 0xBF)
  else if 0xF1 ≤ s0 ∧ s0 ≤ 0xF3 then some (4, 0x80, 0xBF)
  else if s0 = 0xF4 then some (4, 0x80, 0x8F)
  else none

/-- The function `utf8.DecodeRuneInString`: the first rune of `s` and its width
in bytes.  The empty string gives `(RuneError, 0)`, an invalid encoding
`(RuneError, 1)`.  The masks `s0&mask2`, `s1&maskx`, ... are written as
remainders and the shifts as products. -/
def DecodeRune (s : Str) : Nat × Nat :=
  match s with
  | [] => (RuneError, 0)
  | s0 :: t =>
    if s0 < RuneSelf then (s0, 1)
    else
      match first s0 with
      | none => (RuneError, 1)
      | some (sz, lo, hi) =>
        if s.length < sz then (RuneError, 1)
        else
          match t with
          | [] => (RuneError, 1)
          | s1 :: t1 =>
            if s1 < lo ∨ hi < s1 then (RuneError, 1)
            else if sz ≤ 2 then (s0 % 32 * 64 + s1 % 64, 2)
            else
              match t1 with
              | [] => (RuneError, 1)
              | s2 :: t2 =>
                if s2 < 0x80 ∨ 0xBF < s2 then (RuneError, 1)
                else if sz ≤ 3 then (s0 % 16 * 4096 + s1 % 64 * 64 + s2 % 64, 3)
                else
                  match t2 with
                  | [] => (RuneError, 1)
                  | s3 :: _ =>
                    if s3 < 0x80 ∨ 0xBF < s3 then (RuneError, 1)
                    else (s0 % 8 * 262144 + s1 % 64 * 4096 + s2 % 64 * 64 + s3 % 64, 4)

/-- The predicate `utf8.RuneStart`: the byte is not a continuation byte. -/
def RuneStart (b : Nat) : Bool := !(0x80 ≤ b && b ≤ 0xBF)

/-- The loop of `utf8.DecodeLastRuneInString` that walks `start` backwards, at
most down to `lim`, until it stands on a byte that can start a rune. -/
def lastRuneStart (s : Str) (lim : Int) : Nat → Int → Int
  | 0, start => start
  | n + 1, start =>
    if start < lim then start
    else if RuneStart (s.getD start.toNat 0) then start
    else lastRuneStart s lim n (start - 1)

/-- The function `utf8.DecodeLastRuneInString`: the last rune of `s` and its
width in bytes. -/
def DecodeLastRune (s : Str) : Nat × Nat :=
  let stop : Int := s.length
  if stop = 0 then (RuneError, 0)
  else
    let r := s.getD (s.length - 1) 0
    if r < RuneSelf then (r, 1)
    else
      let lim : Int := if stop - 4 < 0 then 0 else stop - 4
      let start := lastRuneStart s lim 4 (stop - 1 - 1)
      let start := if start < 0 then 0 else start
      let d := DecodeRune (s.drop start.toNat)
      if start + d.2 ≠ stop then (RuneError, 1) else d

/-- The function `utf8.AppendRune` on an empty buffer: the UTF-8 encoding of a
rune; surrogates and values above `MaxRune` are encoded as `RuneError`. -/
def EncodeRune (r : Nat) : Str :=
  if r < 0x80 then [r]
  else if r ≤ 0x7FF then [0xC0 + r / 64, 0x80 + r % 64]
  else if r > MaxRune ∨ (0xD800 ≤ r ∧ r ≤ 0xDFFF) then [0xEF, 0xBF, 0xBD]
  else if r ≤ 0xFFFF then [0xE0 + r / 4096, 0x80 + r / 64 % 64, 0x80 + r % 64]
  else [0xF0 + r / 262144, 0x80 + r / 4096 % 64, 0x80 + r / 64 % 64, 0x80 + r % 64]

/-- The bytes of a Go string literal: the UTF-8 encoding of its characters. -/
def str (s : String) : Str := s.toList.flatMap (fun c => EncodeRune c.toNat)

/-! ## unicode -/

/-- The type `unicode.CaseRange`: the code points `Lo..Hi` and the deltas to
add to reach the upper, lower and title case. -/
structure CaseRange where
  Lo : Nat
  Hi : Nat
  Delta : Int × Int × Int

/-- The constant `unicode.UpperLower` marking an alternating range. -/
def UpperLower : Int := 0x10FFFF + 1

/-- The case selector `unicode.UpperCase`. -/
def UpperCase : Nat := 0

/-- The case selector `unicode.LowerCase`. -/
def LowerCase : Nat := 1

/-- The delta of a range for one case (`cr.Delta[_case]`). -/
def CaseRange.delta (cr : CaseRange) (c : Nat) : Int :=
  if c = 0 then cr.Delta.1 else if c = 1 then cr.Delta.2.1 else cr.Delta.2.2

/-- The function `unicode.to`: the mapping of `r` by the range of the table that
holds it, `r` itself when no range does.  Go searches the sorted table by
bisection; the ranges are disjoint, so the first range holding `r` is the one
it finds. -/
def unicodeTo (c : Nat) (r : Nat) : List CaseRange → Nat
  | [] => r
  | cr :: rest =>
    if cr.Lo ≤ r ∧ r ≤ cr.Hi then
      if cr.delta c > (MaxRune : Int) then cr.Lo + ((r - cr.Lo) / 2 * 2 + c % 2)
      else ((r : Int) + cr.delta c).toNat
    else unicodeTo c r rest

/-- The function `unicode.ToUpper`; `tbl` is the table `unicode.CaseRanges`. -/
def unicodeToUpper (tbl : List CaseRange) (r : Nat) : Nat :=
  if r ≤ 0x7F then
    if 0x61 ≤ r ∧ r ≤ 0x7A then r - 0x20 else r
  else unicodeTo UpperCase r tbl

/-- The function `unicode.ToLower`; `tbl` is the table `unicode.CaseRanges`. -/
def unicodeToLower (tbl : List CaseRange) (r : Nat) : Nat :=
  if r ≤ 0x7F then
    if 0x41 ≤ r ∧ r ≤ 0x5A then r + 0x20 else r
  else unicodeTo LowerCase r tbl

/-- The entries of `unicode.CaseRanges` for the code points up to U+017F
(Basic Latin, Latin-1 Supplement, Latin Extended-A). -/
def caseRangesLatin : List CaseRange :=
  [ ⟨0x0041, 0x005A, (0, 32, 0)⟩,
    ⟨0x0061, 0x007A, (-32, 0, -32)⟩,
    ⟨0x00B5, 0x00B5, (743, 0, 743)⟩,
    ⟨0x00C0, 0x00D6, (0, 32, 0)⟩,
    ⟨0x00D8, 0x00DE, (0, 32, 0)⟩,
    ⟨0x00E0, 0x00F6, (-32, 0, -32)⟩,
    ⟨0x00F8, 0x00FE, (-32, 0, -32)⟩,
    ⟨0x00FF, 0x00FF, (121, 0, 121)⟩,
    ⟨0x0100, 0x012F, (UpperLower, UpperLower, UpperLower)⟩,
    ⟨0x0130, 0x0130, (0, -199, 0)⟩,
    ⟨0x0131, 0x0131, (-232, 0, -232)⟩,
    ⟨0x0132, 0x0137, (UpperLower, UpperLower, UpperLower)⟩,
    ⟨0x0139, 0x0148, (UpperLower, UpperLower, UpperLower)⟩,
    ⟨0x014A, 0x0177, (UpperLower, UpperLower, UpperLower)⟩,
    ⟨0x0178, 0x0178, (0, -121, 0)⟩,
    ⟨0x0179, 0x017E, (UpperLower, UpperLower, UpperLower)⟩,
    ⟨0x017F, 0x017F, (-300, 0, -300)⟩ ]

/-- The function `unicode.IsSpace`: the Latin-1 cases of its switch, then the
ranges of the table `unicode.White_Space` above Latin-1. -/
def IsSpace (r : Nat) : Bool :=
  if r ≤ 0xFF then
    r = 0x09 || r = 0x0A || r = 0x0B || r = 0x0C || r = 0x0D || r = 0x20 || r = 0x85 || r = 0xA0
  else
    r = 0x1680 || (0x2000 ≤ r && r ≤ 0x200A) || r = 0x2028 || r = 0x2029 || r = 0x202F
      || r = 0x205F || r = 0x3000

/-! ## strings -/

/-- The function `strings.HasPrefix`. -/
def HasPrefix (s p : Str) : Bool :=
  decide (p.length ≤ s.length) && s.take p.length == p

/-- The function `strings.Contains`: `substr` occurs in `s` at some index. -/
def Contains : Str → Str → Bool
  | [], substr => HasPrefix [] substr
  | c :: t, substr => HasPrefix (c :: t) substr || Contains t substr

/-- The loop of `strings.Map`, with fuel the number of bytes left: each rune
of `s` (an invalid byte reads as `RuneError`, one byte wide) is replaced by the
encoding of its image. -/
def mapLoop (mapping : Nat → Nat) : Nat → Str → Str
  | 0, _ => []
  | n + 1, s =>
    match s with
    | [] => []
    | _ :: _ => EncodeRune (mapping (DecodeRune s).1) ++ mapLoop mapping n (s.drop (DecodeRune s).2)

/-- The function `strings.Map` for a mapping that drops no rune.  Go copies the
runes before the first changed one verbatim; they are valid encodings, which
`EncodeRune` reproduces (`EncodeRune_DecodeRune` below). -/
def Map (mapping : Nat → Nat) (s : Str) : Str := mapLoop mapping s.length s

/-- The function `strings.ToUpper`: byte-wise on an ASCII string, `Map` with
`unicode.ToUpper` otherwise (the two agree, `ToUpper_eq_Map` below). -/
def ToUpper (tbl : List CaseRange) (s : Str) : Str :=
  if s.all (fun c => c < RuneSelf) then
    if s.any (fun c => 0x61 ≤ c && c ≤ 0x7A) then
      s.map (fun c => if 0x61 ≤ c ∧ c ≤ 0x7A then c - 0x20 else c)
    else s
  else Map (unicodeToUpper tbl) s

/-- The function `strings.ToLower`: byte-wise on an ASCII string, `Map` with
`unicode.ToLower` otherwise. -/
def ToLower (tbl : List CaseRange) (s : Str) : Str :=
  if s.all (fun c => c < RuneSelf) then
    if s.any (fun c => 0x41 ≤ c && c ≤ 0x5A) then
      s.map (fun c => if 0x41 ≤ c ∧ c ≤ 0x5A then c + 0x20 else c)
    else s
  else Map (unicodeToLower tbl) s

/-- The loop of `strings.indexFunc(s, f, false)` inside `TrimLeftFunc`: drop
leading runes while `f` holds. -/
def trimLeftLoop (f : Nat → Bool) : Nat → Str → Str
  | 0, _ => []
  | n + 1, s =>
    match s with
    | [] => []
    | _ :: _ => if f (DecodeRune s).1 then trimLeftLoop f n (s.drop (DecodeRune s).2) else s

/-- The function `strings.TrimLeftFunc`. -/
def TrimLeftFunc (s : Str) (f : Nat → Bool) : Str := trimLeftLoop f s.length s

/-- The function `strings.lastIndexFunc(s, f, false)`: the index at which the
last rune not satisfying `f` starts, decoding backwards; `none` stands for -1. -/
def lastIndexFunc (f : Nat → Bool) : Nat → Str → Option Nat
  | 0, _ => none
  | n + 1, s =>
    match s with
    | [] => none
    | _ :: _ =>
      if f (DecodeLastRune s).1 then lastIndexFunc f n (s.take (s.length - (DecodeLastRune s).2))
      else some (s.length - (DecodeLastRune s).2)

/-- The function `strings.TrimRightFunc`. -/
def TrimRightFunc (s : Str) (f : Nat → Bool) : Str :=
  match lastIndexFunc f s.length s with
  | some i =>
    if s.getD i 0 ≥ RuneSelf then s.take (i + (DecodeRune (s.drop i)).2) else s.take (i + 1)
  | none => s.take 0

/-- The function `strings.TrimFunc`. -/
def TrimFunc (s : Str) (f : Nat → Bool) : Str := TrimRightFunc (TrimLeftFunc s f) f

/-- The table `strings.asciiSpace`. -/
def asciiSpace (c : Nat) : Bool :=
  c = 0x09 || c = 0x0A || c = 0x0B || c = 0x0C || c = 0x0D || c = 0x20

/-- The function `strings.TrimSpace`: ASCII white space is skipped from both
ends; at the first byte that is not ASCII the remainder is handed to
`TrimFunc` (from the left) or `TrimRightFunc` (from the right) with
`unicode.IsSpace`. -/
def TrimSpace (s : Str) : Str :=
  match s.dropWhile asciiSpace with
  | [] => []
  | c :: t =>
    if c ≥ RuneSelf then TrimFunc (c :: t) IsSpace
    else
      match ((c :: t).rdropWhile asciiSpace).getLast? with
      | none => []
      | some d =>
        if d ≥ RuneSelf then TrimRightFunc ((c :: t).rdropWhile asciiSpace) IsSpace
        else (c :: t).rdropWhile asciiSpace

/-- The function `strings.TrimRight` for a cutset of several ASCII bytes, the
branch `trimRightASCII`: bytes of the cutset are removed from the end. -/
def TrimRight (s cutset : Str) : Str := s.rdropWhile (fun b => cutset.contains b)

/-- The slice expression `s[lo:hi]`; `none` is the run-time panic of a slice
out of range. -/
def slice (s : Str) (lo hi : Nat) : Option Str :=
  if lo ≤ hi ∧ hi ≤ s.length then some ((s.take hi).drop lo) else none

/-- The slice expression `s[lo:]`; `none` is the run-time panic. -/
def sliceFrom (s : Str) (lo : Nat) : Option Str :=
  if lo ≤ s.length then some (s.drop lo) else none

/-! ## main.go: clean -/

/-- The string literal `"\ufeff"`: the three bytes of the byte-order mark. -/
def bom : Str := str "\uFEFF"

/-- The scanner prefixes of the loop in `clean`, in its order. -/
def scannerPrefixes : List Str := [str "URL:", str "SCAN:", str "CODE:", str "DATA:"]

/-- The loop of `clean` over the prefixes: at the first prefix that the
upper-cased line starts with, the line is cut at the length of the prefix and
trimmed, and the loop ends. -/
def stripScannerPrefix (tbl : List CaseRange) (line : Str) : List Str → Option Str
  | [] => some line
  | p :: ps =>
    if HasPrefix (ToUpper tbl line) p then (sliceFrom line p.length).map TrimSpace
    else stripScannerPrefix tbl line ps

/-- The function `clean` of `main.go`. -/
def clean (tbl : List CaseRange) (line : Str) : Option Str :=
  let line := TrimSpace line
  (if line.length ≥ 3 then
      (slice line 0 3).bind (fun h => if h = bom then sliceFrom line 3 else some line)
    else some line).bind (fun line =>
  (stripScannerPrefix tbl line scannerPrefixes).bind (fun line =>
  some (TrimRight line (str "\r\n\t "))))

/-! ## regexp -/

/-- The regular expressions used by `main.go`, as Go's parser reads them: a
rune of a class (a literal is the class of one rune), concatenation, the greedy
`?`, and the greedy `*` and `+` of a class.  The input is read rune by rune
with `DecodeRune`, an invalid byte being the rune `RuneError`. -/
inductive Re where
  | empty : Re
  | rune (p : Nat → Bool) : Re
  | cat (a b : Re) : Re
  | quest (a : Re) : Re
  | star (p : Nat → Bool) : Re
  | plus (p : Nat → Bool) : Re

/-- One rune of the class `p` at the head of `s`: what is left after it. -/
def runeEnds (p : Nat → Bool) (s : Str) : List Str :=
  match s with
  | [] => []
  | _ :: _ => if p (DecodeRune s).1 then [s.drop (DecodeRune s).2] else []

/-- The greedy `*` of a class: every way to stop, the longest run first. -/
def starEnds (p : Nat → Bool) : Nat → Str → List Str
  | 0, s => [s]
  | n + 1, s => (runeEnds p s).flatMap (starEnds p n) ++ [s]

/-- Every way `re` matches at the head of `s`, as the input left after the
match, in the order a backtracking search tries them (Go's leftmost-first
preference): the head of the list is the match Go reports. -/
def Re.ends : Re → Str → List Str
  | .empty, s => [s]
  | .rune p, s => runeEnds p s
  | .cat a b, s => (a.ends s).flatMap (fun s1 => b.ends s1)
  | .quest a, s => a.ends s ++ [s]
  | .star p, s => starEnds p s.length s
  | .plus p, s => (runeEnds p s).flatMap (fun s1 => starEnds p s1.length s1)

/-- The unanchored search: the leftmost position (advancing rune by rune) at
which `re` matches, as the matched text and the input after it. -/
def Re.find (re : Re) : Nat → Str → Option (Str × Str)
  | 0, _ => none
  | n + 1, s =>
    match (re.ends s).head? with
    | some rest => some (s.take (s.length - rest.length), rest)
    | none =>
      match s with
      | [] => none
      | _ :: _ => re.find n (s.drop (DecodeRune s).2)

/-- The loop of `Regexp.allMatches` behind `FindAllString(s, -1)`: the search
resumes where the last match ended; an empty match is dropped when it stands
right after the previous match, and the search then moves on by one rune. -/
def allMatches (re : Re) : Nat → Str → Bool → List Str
  | 0, _, _ => []
  | n + 1, s, afterMatch =>
    match re.find (s.length + 1) s with
    | none => []
    | some (m, rest) =>
      if rest.length = s.length then
        (if afterMatch then [] else [m]) ++
          (match s with
           | [] => []
           | _ :: _ => allMatches re n (s.drop (DecodeRune s).2) false)
      else m :: allMatches re n rest true

/-- The method `Regexp.FindAllString(s, -1)`. -/
def FindAllString (re : Re) (s : Str) : List Str := allMatches re (s.length + 1) s false

/-- The method `Regexp.FindStringSubmatch` for an expression that is one
capture group around the whole pattern: the match and the group, which are the
same text; the empty slice when there is no match. -/
def FindStringSubmatch (re : Re) (s : Str) : List Str :=
  match re.find (s.length + 1) s with
  | none => []
  | some (m, _) => [m, m]

/-- A literal character of a pattern. -/
def Re.lit (c : Char) : Re := .rune (fun r => r = c.toNat)

/-- A literal string of a pattern, followed by `k`. -/
def Re.lits (s : String) (k : Re) : Re := s.toList.foldr (fun c k1 => .cat (.lit c) k1) k

/-- The Perl class `\s` of Go's `regexp/syntax`: tab, newline, form feed,
carriage return, space. -/
def perlSpace (r : Nat) : Bool := r = 0x09 || r = 0x0A || r = 0x0C || r = 0x0D || r = 0x20

/-- The class `[^\s<>"']`. -/
def urlClass (r : Nat) : Bool :=
  !(perlSpace r || r = '<'.toNat || r = '>'.toNat || r = '"'.toNat || r = '\''.toNat)

/-- The class `[A-Za-z0-9\-\._]`. -/
def hostClass (r : Nat) : Bool :=
  ('A'.toNat ≤ r && r ≤ 'Z'.toNat) || ('a'.toNat ≤ r && r ≤ 'z'.toNat)
    || ('0'.toNat ≤ r && r ≤ '9'.toNat) || r = '-'.toNat || r = '.'.toNat || r = '_'.toNat

/-- The pattern `https?://[^\s<>"']+` of the variable `urlRegex`. -/
def urlRegex : Re := Re.lits "http" (.cat (.quest (.lit 's')) (Re.lits "://" (.plus urlClass)))

/-- The pattern `([A-Za-z0-9\-\._]*carbon\.ms[^\s<>"']*)` of the variable
`carbonRe`. -/
def carbonRe : Re := .cat (.star hostClass) (Re.lits "carbon.ms" (.star urlClass))

/-! ## net/url -/

/-- The fields of `url.URL` that `Parse` fills (the user information is
checked but not kept). -/
structure URL where
  Scheme : Str
  Opaque : Str
  Host : Str
  Path : Str
  RawQuery : Str
  Fragment : Str

/-- The modes of `net/url` escaping that `Parse` uses. -/
inductive Encoding where
  | encodePath
  | encodeHost
  | encodeZone
  | encodeUserPassword
  | encodeFragment
  deriving DecidableEq

/-- The function `strings.Cut(s, sep)` for a separator of one byte: the text before
its first occurrence, the text after it, and whether it occurs. -/
def Cut (s : Str) (sep : Nat) : Str × Str × Bool :=
  match s with
  | [] => ([], [], false)
  | c :: t =>
    if c = sep then ([], t, true)
    else ((c :: (Cut t sep).1), (Cut t sep).2.1, (Cut t sep).2.2)

/-- The function `strings.Index`: the first index at which `substr` occurs. -/
def Index : Str → Str → Option Nat
  | [], substr => if HasPrefix [] substr then some 0 else none
  | c :: t, substr =>
    if HasPrefix (c :: t) substr then some 0 else (Index t substr).map (fun i => i + 1)

/-- The function `strings.LastIndex` for a separator of one byte. -/
def LastIndexByte (s : Str) (sep : Nat) : Option Nat :=
  match s with
  | [] => none
  | c :: t =>
    match LastIndexByte t sep with
    | some i => some (i + 1)
    | none => if c = sep then some 0 else none

/-- The function `url.stringContainsCTLByte`. -/
def stringContainsCTLByte (s : Str) : Bool := s.any (fun b => b < 0x20 || b = 0x7F)

/-- The function `url.ishex`. -/
def ishex (c : Nat) : Bool :=
  ('0'.toNat ≤ c && c ≤ '9'.toNat) || ('a'.toNat ≤ c && c ≤ 'f'.toNat)
    || ('A'.toNat ≤ c && c ≤ 'F'.toNat)

/-- The function `url.unhex`. -/
def unhex (c : Nat) : Nat :=
  if '0'.toNat ≤ c ∧ c ≤ '9'.toNat then c - '0'.toNat
  else if 'a'.toNat ≤ c ∧ c ≤ 'f'.toNat then c - 'a'.toNat + 10
  else if 'A'.toNat ≤ c ∧ c ≤ 'F'.toNat then c - 'A'.toNat + 10
  else 0

/-- The function `url.shouldEscape(c, encodeHost)`. -/
def shouldEscapeHost (c : Nat) : Bool :=
  if ('a'.toNat ≤ c && c ≤ 'z'.toNat) || ('A'.toNat ≤ c && c ≤ 'Z'.toNat)
      || ('0'.toNat ≤ c && c ≤ '9'.toNat) then false
  else if (str "!$&\'()*+,;=:[]<>\"").contains c then false
  else if (str "-_.~").contains c then false
  else true

/-- The function `url.unescape`: `none` is its error (a malformed escape, or a
byte a host may not hold). -/
def unescape (mode : Encoding) : Str → Option Str
  | [] => some []
  | c :: t =>
    if c = '%'.toNat then
      match t with
      | a :: b :: rest =>
        if !ishex a || !ishex b then none
        else if mode = .encodeHost && unhex a < 8 && [c, a, b] ≠ str "%25" then none
        else if mode = .encodeZone && [c, a, b] ≠ str "%25" && unhex a * 16 + unhex b ≠ 0x20
            && shouldEscapeHost (unhex a * 16 + unhex b) then none
        else (unescape mode rest).map (fun r => (unhex a * 16 + unhex b) :: r)
      | _ => none
    else if (mode = .encodeHost || mode = .encodeZone) && c < 0x80 && shouldEscapeHost c then none
    else (unescape mode t).map (fun r => c :: r)

/-- The loop of `url.getScheme` at index `i`, `rest` being `rawURL[i:]`: the
scheme and what follows its colon; `none` is the error "missing protocol
scheme". -/
def getSchemeLoop (rawURL : Str) : Nat → Str → Option (Str × Str)
  | _, [] => some ([], rawURL)
  | i, c :: t =>
    if ('a'.toNat ≤ c && c ≤ 'z'.toNat) || ('A'.toNat ≤ c && c ≤ 'Z'.toNat) then
      getSchemeLoop rawURL (i + 1) t
    else if ('0'.toNat ≤ c && c ≤ '9'.toNat) || c = '+'.toNat || c = '-'.toNat || c = '.'.toNat then
      if i = 0 then some ([], rawURL) else getSchemeLoop rawURL (i + 1) t
    else if c = ':'.toNat then
      if i = 0 then none else some (rawURL.take i, t)
    else some ([], rawURL)

/-- The function `url.getScheme`. -/
def getScheme (rawURL : Str) : Option (Str × Str) := getSchemeLoop rawURL 0 rawURL

/-- The function `url.validOptionalPort`. -/
def validOptionalPort (port : Str) : Bool :=
  match port with
  | [] => true
  | c :: t => c = ':'.toNat && t.all (fun b => '0'.toNat ≤ b && b ≤ '9'.toNat)

/-- The function `url.validUserinfo`. -/
def validUserinfo (s : Str) : Bool :=
  s.all (fun r =>
    ('A'.toNat ≤ r && r ≤ 'Z'.toNat) || ('a'.toNat ≤ r && r ≤ 'z'.toNat)
      || ('0'.toNat ≤ r && r ≤ '9'.toNat) || (str "-._:~!$&\'()*+,;=%@").contains r)

/-- The function `url.parseHost`. -/
def parseHost (host : Str) : Option Str :=
  if HasPrefix host (str "[") then
    match LastIndexByte host ']'.toNat with
    | none => none
    | some i =>
      if !validOptionalPort (host.drop (i + 1)) then none
      else
        match Index (host.take i) (str "%25") with
        | some zone =>
          (unescape .encodeHost (host.take zone)).bind (fun host1 =>
          (unescape .encodeZone ((host.take i).drop zone)).bind (fun host2 =>
          (unescape .encodeHost (host.drop i)).bind (fun host3 =>
          some (host1 ++ host2 ++ host3))))
        | none => unescape .encodeHost host
  else
    match LastIndexByte host ':'.toNat with
    | some i => if !validOptionalPort (host.drop i) then none else unescape .encodeHost host
    | none => unescape .encodeHost host

/-- The function `url.parseAuthority`, keeping the host only. -/
def parseAuthority (authority : Str) : Option Str :=
  match LastIndexByte authority '@'.toNat with
  | none => parseHost authority
  | some i =>
    (parseHost (authority.drop (i + 1))).bind (fun host =>
      if !validUserinfo (authority.take i) then none
      else if !Contains (authority.take i) (str ":") then
        (unescape .encodeUserPassword (authority.take i)).bind (fun _ => some host)
      else
        (unescape .encodeUserPassword (Cut (authority.take i) ':'.toNat).1).bind (fun _ =>
        (unescape .encodeUserPassword (Cut (authority.take i) ':'.toNat).2.1).bind (fun _ =>
        some host)))

/-- The function `url.parse(rawURL, false)`: the URL without its fragment. -/
def parseNoFragment (rawURL : Str) : Option URL :=
  if stringContainsCTLByte rawURL then none
  else if rawURL = str "*" then some ⟨[], [], [], str "*", [], []⟩
  else
    (getScheme rawURL).bind (fun sr =>
      let scheme := sr.1.map (fun c => if 'A'.toNat ≤ c ∧ c ≤ 'Z'.toNat then c + 0x20 else c)
      let cut : Str × Str :=
        if sr.2.getLast? = some '?'.toNat ∧ sr.2.count '?'.toNat = 1 then (sr.2.dropLast, [])
        else ((Cut sr.2 '?'.toNat).1, (Cut sr.2 '?'.toNat).2.1)
      let rest := cut.1
      let query := cut.2
      if !HasPrefix rest (str "/") && scheme ≠ [] then some ⟨scheme, rest, [], [], query, []⟩
      else if !HasPrefix rest (str "/") && Contains (Cut rest '/'.toNat).1 (str ":") then none
      else if (scheme ≠ [] || !HasPrefix rest (str "///")) && HasPrefix rest (str "//") then
        let authority := (Cut (rest.drop 2) '/'.toNat).1
        let path := rest.drop (2 + authority.length)
        (parseAuthority authority).bind (fun host =>
        (unescape .encodePath path).bind (fun p =>
        some ⟨scheme, [], host, p, query, []⟩))
      else (unescape .encodePath rest).bind (fun p => some ⟨scheme, [], [], p, query, []⟩))

/-- The function `url.Parse`: the fragment is cut off at the first `#`, the rest
is parsed, and the fragment is unescaped. -/
def Parse (rawURL : Str) : Option URL :=
  (parseNoFragment (Cut rawURL '#'.toNat).1).bind (fun u =>
    if (Cut rawURL '#'.toNat).2.1 = [] then some u
    else (unescape .encodeFragment (Cut rawURL '#'.toNat).2.1).bind (fun f =>
      some { u with Fragment := f }))

/-! ## main.go: isValidURL, processScannedLine -/

/-- The function `isValidURL` of `main.go`; `parse` is `url.Parse`, its error
being `none`. -/
def isValidURL (parse : Str → Option URL) (s : Str) : Bool :=
  match parse s with
  | none => false
  | some u => u.Scheme ≠ [] && u.Host ≠ []

/-- The three calls of `openURL` in `processScannedLine`: for a localhost line,
for an explicit URL, for the rebuilt URL. -/
inductive Site where
  | localhost
  | explicitURL
  | fallback
  deriving DecidableEq

/-- One step of the loop over the matches of `urlRegex`: the calls of `openURL`
so far and the flag `opened`. -/
def openMatch (tbl : List CaseRange) (parse : Str → Option URL)
    (st : List (Site × Str) × Bool) (u : Str) : List (Site × Str) × Bool :=
  if Contains (ToLower tbl u) (str "carbon.ms") then
    if isValidURL parse u then (st.1 ++ [(Site.explicitURL, u)], true) else st
  else st

/-- The function `processScannedLine` of `main.go`: the calls of `openURL` it
makes, in order, each with the call site; `none` is a run-time panic. -/
def processScannedLine (tbl : List CaseRange) (parse : Str → Option URL) (line : Str) :
    Option (List (Site × Str)) :=
  let line := TrimSpace line
  if line = [] then some []
  else
    (clean tbl line).bind (fun line =>
      if HasPrefix line (str "http://localhost") then
        if isValidURL parse line then some [(Site.localhost, line)] else some []
      else if Contains (ToLower tbl line) (str "carbon.ms") then
        let st := (FindAllString urlRegex line).foldl (openMatch tbl parse) ([], false)
        if st.2 then some st.1
        else
          let m := FindStringSubmatch carbonRe line
          if m.length > 0 then
            (m.get? 1).bind (fun c =>
              let candidate :=
                if !HasPrefix c (str "http://") && !HasPrefix c (str "https://") then
                  str "https://" ++ c
                else c
              if isValidURL parse candidate then some (st.1 ++ [(Site.fallback, candidate)])
              else some st.1)
          else some st.1
      else some [])

/-- The URLs handed to `openURL`, in order. -/
def opened (r : Option (List (Site × Str))) : List Str :=
  match r with
  | none => []
  | some evs => evs.map (fun e => e.2)

/-! ## Definitions for the statements

The values of `clean` and `processScannedLine` written without the run-time
checks, which the lemmas below show to be what the functions above return, and
the predicates the statements use. -/

/-- The line after the first two steps of `clean`: trimmed, and without a
leading byte-order mark. -/
def unmarked (line : Str) : Str :=
  if HasPrefix (TrimSpace line) bom then (TrimSpace line).drop 3 else TrimSpace line

/-- The loop of `clean` over the prefixes with the slice taken as `List.drop`:
the value of `stripScannerPrefix` when the slice is in range. -/
def stripped (tbl : List CaseRange) (line : Str) : List Str → Str
  | [] => line
  | p :: ps =>
    if HasPrefix (ToUpper tbl line) p then TrimSpace (line.drop p.length)
    else stripped tbl line ps

/-- The test of the loop over the explicit URLs. -/
def opensExplicit (tbl : List CaseRange) (parse : Str → Option URL) (u : Str) : Bool :=
  Contains (ToLower tbl u) (str "carbon.ms") && isValidURL parse u

/-- The URL the third call of `openURL` would receive for the fragment `c`. -/
def candidateOf (c : Str) : Str :=
  if !HasPrefix c (str "http://") && !HasPrefix c (str "https://") then str "https://" ++ c
  else c

/-- The calls of `openURL` for the normalized line `L`. -/
def opensOf (tbl : List CaseRange) (parse : Str → Option URL) (L : Str) : List (Site × Str) :=
  if HasPrefix L (str "http://localhost") then
    if isValidURL parse L then [(Site.localhost, L)] else []
  else if Contains (ToLower tbl L) (str "carbon.ms") then
    if ((FindAllString urlRegex L).filter (opensExplicit tbl parse)).isEmpty then
      match FindStringSubmatch carbonRe L with
      | [] => []
      | m :: _ => if isValidURL parse (candidateOf m) then [(Site.fallback, candidateOf m)] else []
    else ((FindAllString urlRegex L).filter (opensExplicit tbl parse)).map
      (fun u => (Site.explicitURL, u))
  else []

/-- The number of calls of `openURL` made at one call site. -/
def opensAt (site : Site) (r : Option (List (Site × Str))) : Nat :=
  match r with
  | none => 0
  | some evs => evs.countP (fun e => e.1 = site)

/-- The list `us` is what a scan of `s` for `re` from left to right finds: each
match is the preferred one at the leftmost position after the match before it,
and nothing matches after the last. -/
def Scan (re : Re) : List Str → Str → Prop
  | [], s => ∀ a b, s = a ++ b → re.ends b = []
  | u :: us, s => ∃ pre rest, s = pre ++ (u ++ rest) ∧ (re.ends (u ++ rest)).head? = some rest ∧
      (∀ a b, pre = a ++ b → b ≠ [] → re.ends (b ++ (u ++ rest)) = []) ∧ Scan re us rest

/-- A continuation byte of UTF-8. -/
def isCont (b : Nat) : Prop := 0x80 ≤ b ∧ b ≤ 0xBF

/-! ## Lemmas: prefixes and occurrences -/

theorem HasPrefix_iff (s p : Str) : HasPrefix s p = true ↔ ∃ t, s = p ++ t := by
  unfold HasPrefix
  constructor
  · intro h
    simp only [Bool.and_eq_true, decide_eq_true_eq, beq_iff_eq] at h
    have h3 := List.take_append_drop p.length s
    rw [h.2] at h3
    exact ⟨s.drop p.length, h3.symm⟩
  · rintro ⟨t, rfl⟩
    simp

theorem HasPrefix_length {s p : Str} (h : HasPrefix s p = true) : p.length ≤ s.length := by
  obtain ⟨t, rfl⟩ := (HasPrefix_iff s p).1 h
  simp

theorem Contains_iff (s sub : Str) : Contains s sub = true ↔ ∃ a b, s = a ++ sub ++ b := by
  induction s with
  | nil =>
    simp only [Contains, HasPrefix_iff]
    constructor
    · rintro ⟨t, h⟩
      exact ⟨[], t, by simpa using h⟩
    · rintro ⟨a, b, h⟩
      have h1 : a = [] := by
        cases a with
        | nil => rfl
        | cons x a => simp at h
      subst h1
      exact ⟨b, by simpa using h⟩
  | cons c t ih =>
    simp only [Contains, Bool.or_eq_true, HasPrefix_iff, ih]
    constructor
    · rintro (⟨u, h⟩ | ⟨a, b, h⟩)
      · exact ⟨[], u, by simpa using h⟩
      · exact ⟨c :: a, b, by simp [h]⟩
    · rintro ⟨a, b, h⟩
      cases a with
      | nil => exact Or.inl ⟨b, by simpa using h⟩
      | cons x a =>
        simp only [List.cons_append, List.cons.injEq] at h
        exact Or.inr ⟨a, b, by simp [h.2]⟩

/-! ## Lemmas: decoding and encoding -/

theorem first_some {s0 sz lo hi : Nat} (h : first s0 = some (sz, lo, hi)) :
    0xC2 ≤ s0 ∧ s0 ≤ 0xF4 ∧ 2 ≤ sz ∧ sz ≤ 4 ∧ 0x80 ≤ lo ∧ hi ≤ 0xBF := by
  unfold first at h
  split_ifs at h <;> simp at h <;> omega

theorem DecodeRune_width_pos (s : Str) (h : s ≠ []) : 1 ≤ (DecodeRune s).2 := by
  unfold DecodeRune
  split
  · exact absurd rfl h
  · split_ifs <;> (repeat' split) <;> simp

theorem DecodeRune_width_le (s : Str) : (DecodeRune s).2 ≤ s.length := by
  unfold DecodeRune
  split
  · simp
  · split_ifs <;> (repeat' split) <;> simp_all

theorem DecodeRune_ascii (c : Nat) (t : Str) (h : c < 0x80) : DecodeRune (c :: t) = (c, 1) := by
  simp [DecodeRune, RuneSelf, h]

theorem EncodeRune_ne_nil (r : Nat) : EncodeRune r ≠ [] := by
  unfold EncodeRune
  split_ifs <;> simp

theorem EncodeRune_head_ascii {r b : Nat} {t : Str} (h : EncodeRune r = b :: t) (hb : b < 0x80) :
    t = [] := by
  unfold EncodeRune at h
  split_ifs at h <;> simp at h <;> first | exact h.2 | exact h.2.symm | omega

/-! ## Lemmas: strings.Map -/

theorem mapLoop_fuel (f : Nat → Nat) : ∀ (n : Nat) (s : Str), s.length ≤ n →
    mapLoop f n s = mapLoop f s.length s := by
  intro n
  induction n using Nat.strong_induction_on with
  | _ n ih =>
    intro s hs
    cases s with
    | nil => cases n <;> simp [mapLoop]
    | cons c t =>
      cases n with
      | zero => simp at hs
      | succ n =>
        have hw := DecodeRune_width_pos (c :: t) (by simp)
        simp only [mapLoop, List.length_cons]
        congr 1
        have hl : ((c :: t).drop (DecodeRune (c :: t)).2).length ≤ t.length := by
          simp only [List.length_drop, List.length_cons]; omega
        rw [ih n (Nat.lt_succ_self n) _ (by simp only [List.length_cons] at hs; omega)]
        by_cases hlt : t.length < n + 1
        · rw [ih t.length hlt _ hl]
        · have : t.length = n + 1 := by simp only [List.length_cons] at hs; omega
          simp only [List.length_cons] at hs; omega

theorem Map_nil (f : Nat → Nat) : Map f [] = [] := rfl

theorem Map_cons (f : Nat → Nat) (c : Nat) (t : Str) :
    Map f (c :: t) =
      EncodeRune (f (DecodeRune (c :: t)).1) ++ Map f ((c :: t).drop (DecodeRune (c :: t)).2) := by
  have hw := DecodeRune_width_pos (c :: t) (by simp)
  unfold Map
  simp only [mapLoop, List.length_cons]
  congr 1
  apply mapLoop_fuel
  simp only [List.length_drop, List.length_cons]; omega

/-- An ASCII prefix of a mapped string is no longer than the string mapped. -/
theorem Map_ascii_prefix_length (f : Nat → Nat) : ∀ (n : Nat) (s p : Str), s.length ≤ n →
    (∀ b ∈ p, b < 0x80) → (∃ t, Map f s = p ++ t) → p.length ≤ s.length := by
  intro n
  induction n with
  | zero =>
    intro s p hs hp ⟨t, ht⟩
    have : s = [] := List.eq_nil_of_length_eq_zero (by omega)
    subst this
    rw [Map_nil] at ht
    cases p with
    | nil => simp
    | cons b p => simp at ht
  | succ n ih =>
    intro s p hs hp ⟨t, ht⟩
    cases p with
    | nil => simp
    | cons b p =>
      cases s with
      | nil => rw [Map_nil] at ht; simp at ht
      | cons c s =>
        rw [Map_cons] at ht
        have hw := DecodeRune_width_pos (c :: s) (by simp)
        have hb : b < 0x80 := hp b (by simp)
        obtain ⟨e, es, he⟩ := List.exists_cons_of_ne_nil (EncodeRune_ne_nil (f (DecodeRune (c :: s)).1))
        rw [he] at ht
        simp only [List.cons_append, List.cons.injEq] at ht
        have hes : es = [] := EncodeRune_head_ascii he (ht.1 ▸ hb)
        subst hes
        simp only [List.nil_append] at ht
        have := ih ((c :: s).drop (DecodeRune (c :: s)).2) p
          (by simp only [List.length_drop, List.length_cons] at hs ⊢; omega)
          (fun x hx => hp x (by simp [hx])) ⟨t, ht.2⟩
        simp only [List.length_drop, List.length_cons] at this ⊢
        omega

theorem ToUpper_ascii_prefix_length (tbl : List CaseRange) (s p : Str)
    (hp : ∀ b ∈ p, b < 0x80) (h : HasPrefix (ToUpper tbl s) p = true) : p.length ≤ s.length := by
  unfold ToUpper at h
  split_ifs at h
  · simpa using HasPrefix_length h
  · exact HasPrefix_length h
  · exact Map_ascii_prefix_length _ s.length s p (le_refl _) hp ((HasPrefix_iff _ _).1 h)

/-! ## Lemmas: clean -/

theorem stripScannerPrefix_eq (tbl : List CaseRange) (line : Str) (ps : List Str)
    (hps : ∀ p ∈ ps, ∀ b ∈ p, b < 0x80) :
    stripScannerPrefix tbl line ps = some (stripped tbl line ps) := by
  induction ps with
  | nil => rfl
  | cons p ps ih =>
    simp only [stripScannerPrefix, stripped]
    split_ifs with h
    · have hl := ToUpper_ascii_prefix_length tbl line p (hps p (by simp)) h
      simp [sliceFrom, hl]
    · exact ih (fun q hq => hps q (by simp [hq]))

theorem scannerPrefixes_ascii : ∀ p ∈ scannerPrefixes, ∀ b ∈ p, b < 0x80 := by decide

theorem bom_length : bom.length = 3 := by decide

theorem clean_eq (tbl : List CaseRange) (line : Str) :
    clean tbl line =
      some (TrimRight (stripped tbl (unmarked line) scannerPrefixes) (str "\r\n\t ")) := by
  unfold clean unmarked
  simp only []
  by_cases hb : HasPrefix (TrimSpace line) bom = true
  · have h3 : (TrimSpace line).length ≥ 3 := bom_length ▸ HasPrefix_length hb
    have hs : slice (TrimSpace line) 0 3 = some ((TrimSpace line).take 3) := by
      simp only [slice, List.drop_zero, ite_eq_left_iff]
      intro h; omega
    have ht : (TrimSpace line).take 3 = bom := by
      have := hb
      simp only [HasPrefix, bom_length, Bool.and_eq_true, beq_iff_eq] at this
      exact this.2
    have hf : sliceFrom (TrimSpace line) 3 = some ((TrimSpace line).drop 3) := by
      simp only [sliceFrom, ite_eq_left_iff]
      intro h; omega
    rw [if_pos h3, hs, if_pos hb]
    simp only [Option.some_bind, ht, if_true, hf,
      stripScannerPrefix_eq _ _ _ scannerPrefixes_ascii]
  · rw [if_neg hb]
    by_cases h3 : (TrimSpace line).length ≥ 3
    · have hs : slice (TrimSpace line) 0 3 = some ((TrimSpace line).take 3) := by
        simp only [slice, List.drop_zero, ite_eq_left_iff]
        intro h; omega
      have ht : (TrimSpace line).take 3 ≠ bom := by
        intro ht
        apply hb
        simp only [HasPrefix, bom_length, Bool.and_eq_true, beq_iff_eq, decide_eq_true_eq]
        exact ⟨h3, ht⟩
      rw [if_pos h3, hs]
      simp only [Option.some_bind, ht, if_false,
        stripScannerPrefix_eq _ _ _ scannerPrefixes_ascii]
    · rw [if_neg h3]
      simp only [Option.some_bind, stripScannerPrefix_eq _ _ _ scannerPrefixes_ascii]

/-! ## Lemmas: processScannedLine -/

theorem clean_nil (tbl : List CaseRange) : clean tbl [] = some [] := rfl

theorem ToLower_nil (tbl : List CaseRange) : ToLower tbl [] = [] := rfl

theorem foldl_openMatch (tbl : List CaseRange) (parse : Str → Option URL) (ms : List Str) :
    ∀ (acc : List (Site × Str)) (b : Bool),
      ms.foldl (openMatch tbl parse) (acc, b) =
        (acc ++ (ms.filter (opensExplicit tbl parse)).map (fun u => (Site.explicitURL, u)),
          b || !(ms.filter (opensExplicit tbl parse)).isEmpty) := by
  induction ms with
  | nil => intro acc b; simp
  | cons u ms ih =>
    intro acc b
    simp only [List.foldl_cons, openMatch, opensExplicit]
    by_cases h1 : Contains (ToLower tbl u) (str "carbon.ms") = true
    · by_cases h2 : isValidURL parse u = true
      · simp only [h1, h2, if_true, ih]
        simp [List.filter_cons, opensExplicit, h1, h2]
      · simp only [h1, h2, if_true, if_false, ih]
        simp [List.filter_cons, opensExplicit, h1, h2]
    · simp only [h1, if_false, ih]
      simp [List.filter_cons, opensExplicit, h1]

theorem FindStringSubmatch_cases (re : Re) (s : Str) :
    FindStringSubmatch re s = [] ∨ ∃ m, FindStringSubmatch re s = [m, m] := by
  unfold FindStringSubmatch
  split
  · exact Or.inl rfl
  · exact Or.inr ⟨_, rfl⟩

theorem opensOf_nil (tbl : List CaseRange) (parse : Str → Option URL) : opensOf tbl parse [] = [] := by
  have h1 : HasPrefix [] (str "http://localhost") = false := by decide
  have h2 : Contains (ToLower tbl []) (str "carbon.ms") = false := by
    rw [ToLower_nil]; decide
  simp [opensOf, h1, h2]

theorem processScannedLine_eq (tbl : List CaseRange) (parse : Str → Option URL) (line L : Str)
    (hL : clean tbl (TrimSpace line) = some L) :
    processScannedLine tbl parse line = some (opensOf tbl parse L) := by
  unfold processScannedLine
  simp only []
  by_cases h0 : TrimSpace line = []
  · rw [h0, clean_nil] at hL
    cases hL
    rw [if_pos h0, opensOf_nil]
  · rw [if_neg h0, hL]
    simp only [Option.some_bind, opensOf]
    by_cases hA : HasPrefix L (str "http://localhost") = true
    · simp only [hA, if_true]
      split_ifs <;> rfl
    · simp only [hA, if_false]
      by_cases hB : Contains (ToLower tbl L) (str "carbon.ms") = true
      · simp only [hB, if_true, foldl_openMatch, List.nil_append, Bool.false_or]
        by_cases hE : ((FindAllString urlRegex L).filter (opensExplicit tbl parse)).isEmpty = true
        · simp only [hE, Bool.not_true, if_true, Bool.false_eq_true, if_false]
          have hnil : (FindAllString urlRegex L).filter (opensExplicit tbl parse) = [] := by
            simpa using hE
          rcases FindStringSubmatch_cases carbonRe L with h | ⟨m, h⟩
          · simp [h, hnil]
          · simp only [h, hnil, List.length_cons, List.length_nil, List.map_nil, List.nil_append]
            simp only [candidateOf]
            simp
            split_ifs <;> rfl
        · simp only [hE, Bool.not_false, if_true, if_false, Bool.false_eq_true]
      · simp only [hB, if_false, Bool.false_eq_true]

/-! ## Lemmas: decoding the last rune -/

theorem lastRuneStart_le (s : Str) (lim : Int) : ∀ (n : Nat) (st : Int),
    lastRuneStart s lim n st ≤ st := by
  intro n
  induction n with
  | zero => intro st; simp [lastRuneStart]
  | succ n ih =>
    intro st
    simp only [lastRuneStart]
    split_ifs
    · exact le_refl _
    · exact le_refl _
    · have := ih (st - 1); omega

theorem getD_concat_last (L : Str) (b : Nat) : (L ++ [b]).getD ((L ++ [b]).length - 1) 0 = b := by
  simp [List.getD_eq_getElem?_getD, List.getElem?_append_right]

theorem drop_concat_last (L : Str) (b : Nat) : (L ++ [b]).drop ((L ++ [b]).length - 1) = [b] := by
  simp

theorem DecodeLastRune_cases (s : Str) (h : s ≠ []) :
    DecodeLastRune s = (RuneError, 1) ∨
      (1 ≤ (DecodeLastRune s).2 ∧ (DecodeLastRune s).2 ≤ s.length ∧
        DecodeRune (s.drop (s.length - (DecodeLastRune s).2)) = DecodeLastRune s) := by
  rcases List.eq_nil_or_concat s with h0 | ⟨L, b, hs⟩
  · exact absurd h0 h
  · rw [List.concat_eq_append] at hs
    subst hs
    unfold DecodeLastRune
    simp only []
    have hlen : ((L ++ [b]).length : Int) ≠ 0 := by simp; omega
    rw [if_neg hlen, getD_concat_last]
    by_cases hb : b < RuneSelf
    · rw [if_pos hb]
      right
      refine ⟨le_refl _, by simp, ?_⟩
      rw [drop_concat_last]
      simp only [RuneSelf] at hb
      exact DecodeRune_ascii b [] hb
    · rw [if_neg hb]
      have hle := lastRuneStart_le (L ++ [b])
        (if ((L ++ [b]).length : Int) - 4 < 0 then 0 else ((L ++ [b]).length : Int) - 4) 4
        (((L ++ [b]).length : Int) - 1 - 1)
      generalize lastRuneStart (L ++ [b])
        (if ((L ++ [b]).length : Int) - 4 < 0 then 0 else ((L ++ [b]).length : Int) - 4) 4
        (((L ++ [b]).length : Int) - 1 - 1) = st at hle ⊢
      generalize hst : (if st < 0 then (0 : Int) else st) = st1
      have h1 : 0 ≤ st1 ∧ st1 < ((L ++ [b]).length : Int) := by
        simp only [List.length_append, List.length_singleton] at hle ⊢
        split_ifs at hst <;> push_cast at * <;> omega
      generalize hd : DecodeRune (List.drop st1.toNat (L ++ [b])) = d
      by_cases h2 : st1 + (d.2 : Int) ≠ ((L ++ [b]).length : Int)
      · rw [if_pos h2]; exact Or.inl rfl
      · rw [if_neg h2]
        right
        simp only [ne_eq, not_not] at h2
        have hn : st1.toNat = (L ++ [b]).length - d.2 := by omega
        rw [hn] at hd
        exact ⟨by omega, by omega, hd⟩

theorem DecodeRune_inv (c : Nat) (t : Str) :
    (c < 0x80 ∧ DecodeRune (c :: t) = (c, 1)) ∨
    (0x80 ≤ c ∧ DecodeRune (c :: t) = (RuneError, 1)) ∨
    (∃ b t1, t = b :: t1 ∧ 0xC2 ≤ c ∧ isCont b ∧ (DecodeRune (c :: t)).2 = 2 ∧
      ∀ t2, DecodeRune (c :: b :: t2) = DecodeRune (c :: t)) ∨
    (∃ b1 b2 t1, t = b1 :: b2 :: t1 ∧ 0xC2 ≤ c ∧ isCont b1 ∧ isCont b2 ∧
      (DecodeRune (c :: t)).2 = 3 ∧
      ∀ t2, DecodeRune (c :: b1 :: b2 :: t2) = DecodeRune (c :: t)) ∨
    (∃ b1 b2 b3 t1, t = b1 :: b2 :: b3 :: t1 ∧ 0xC2 ≤ c ∧ isCont b1 ∧ isCont b2 ∧ isCont b3 ∧
      (DecodeRune (c :: t)).2 = 4 ∧
      ∀ t2, DecodeRune (c :: b1 :: b2 :: b3 :: t2) = DecodeRune (c :: t)) := by
  by_cases hc : c < 0x80
  · exact Or.inl ⟨hc, DecodeRune_ascii c t hc⟩
  · right
    cases hf : first c with
    | none => left; simp [DecodeRune, RuneSelf, hc, hf]; omega
    | some v =>
      obtain ⟨sz, lo, hi⟩ := v
      have hfs := first_some hf
      have hc1 : ¬ c < RuneSelf := hc
      cases t with
      | nil => left; simp [DecodeRune, hc1, hf]; omega
      | cons b t1 =>
        by_cases hb : b < lo ∨ hi < b
        · left
          refine ⟨by omega, ?_⟩
          simp only [DecodeRune, hc1, hf, if_false, hb, if_true]
          split_ifs <;> rfl
        · by_cases h2 : sz ≤ 2
          · right; left
            refine ⟨b, t1, rfl, by omega, ⟨by omega, by omega⟩, ?_, ?_⟩
            · simp only [DecodeRune, hc1, hf, if_false, hb, h2, if_true, List.length_cons]
              rw [if_neg (by omega)]
            · intro t2
              simp only [DecodeRune, hc1, hf, if_false, hb, h2, if_true, List.length_cons]
              rw [if_neg (by omega), if_neg (by omega)]
          · cases t1 with
            | nil =>
              left
              refine ⟨by omega, ?_⟩
              simp only [DecodeRune, hc1, hf, if_false, List.length_cons, List.length_nil]
              rw [if_pos (by omega)]
            | cons b2 t2 =>
              by_cases hb2 : b2 < 0x80 ∨ 0xBF < b2
              · left
                refine ⟨by omega, ?_⟩
                simp only [DecodeRune, hc1, hf, if_false, hb, h2, hb2, if_true]
                split_ifs <;> rfl
              · by_cases h3 : sz ≤ 3
                · right; right; left
                  refine ⟨b, b2, t2, rfl, by omega, ⟨by omega, by omega⟩, ⟨by omega, by omega⟩, ?_, ?_⟩
                  · simp only [DecodeRune, hc1, hf, if_false, hb, h2, hb2, h3, if_true,
                      List.length_cons]
                    rw [if_neg (by omega)]
                  · intro t3
                    simp only [DecodeRune, hc1, hf, if_false, hb, h2, hb2, h3, if_true,
                      List.length_cons]
                    rw [if_neg (by omega), if_neg (by omega)]
                · cases t2 with
                  | nil =>
                    left
                    refine ⟨by omega, ?_⟩
                    simp only [DecodeRune, hc1, hf, if_false, List.length_cons, List.length_nil]
                    rw [if_pos (by omega)]
                  | cons b3 t3 =>
                    by_cases hb3 : b3 < 0x80 ∨ 0xBF < b3
                    · left
                      refine ⟨by omega, ?_⟩
                      simp only [DecodeRune, hc1, hf, if_false, hb, h2, hb2, h3, hb3, if_true]
                      split_ifs <;> rfl
                    · right; right; right
                      refine ⟨b, b2, b3, t3, rfl, by omega, ⟨by omega, by omega⟩,
                        ⟨by omega, by omega⟩, ⟨by omega, by omega⟩, ?_, ?_⟩
                      · simp only [DecodeRune, hc1, hf, if_false, hb, h2, hb2, h3, hb3,
                          List.length_cons]
                        rw [if_neg (by omega)]
                      · intro t4
                        simp only [DecodeRune, hc1, hf, if_false, hb, h2, hb2, h3, hb3,
                          List.length_cons]
                        rw [if_neg (by omega), if_neg (by omega)]

theorem RuneStart_iff (c : Nat) : RuneStart c = true ↔ ¬ isCont c := by
  simp only [RuneStart, isCont, Bool.not_eq_true', Bool.and_eq_false_iff, decide_eq_false_iff_not,
    not_and_or]

theorem IsSpace_RuneError : IsSpace RuneError = false := by decide

theorem DecodeRune_append (a b : Str) (h : (DecodeRune a).1 ≠ RuneError) :
    DecodeRune (a ++ b) = DecodeRune a := by
  cases a with
  | nil => exact absurd rfl h
  | cons c t =>
    rcases DecodeRune_inv c t with ⟨hc, _⟩ | ⟨_, he⟩ | ⟨b1, t1, rfl, _, _, _, hall⟩ |
      ⟨b1, b2, t1, rfl, _, _, _, _, hall⟩ | ⟨b1, b2, b3, t1, rfl, _, _, _, _, _, hall⟩
    · rw [List.cons_append, DecodeRune_ascii c _ hc, DecodeRune_ascii c _ hc]
    · rw [he] at h; exact absurd rfl h
    · exact hall (t1 ++ b)
    · exact hall (t1 ++ b)
    · exact hall (t1 ++ b)

theorem DecodeRune_head_of_space (v : Str) (h : IsSpace (DecodeRune v).1 = true) :
    ∃ c t, v = c :: t ∧ RuneStart c = true := by
  cases v with
  | nil => simp [DecodeRune, IsSpace_RuneError] at h
  | cons c t =>
    refine ⟨c, t, rfl, ?_⟩
    rw [RuneStart_iff]
    unfold isCont
    rcases DecodeRune_inv c t with ⟨hc, _⟩ | ⟨_, he⟩ | ⟨b1, t1, _, hc, _⟩ |
      ⟨b1, b2, t1, _, hc, _⟩ | ⟨b1, b2, b3, t1, _, hc, _⟩
    · omega
    · rw [he, IsSpace_RuneError] at h; exact absurd h (by simp)
    · omega
    · omega
    · omega

/-- A rune that fills the whole of `v` has the same width when `v` is followed by
a byte that starts a rune. -/
theorem DecodeRune_width_append (v rest : Str) (hv : v ≠ [])
    (hw : (DecodeRune v).2 = v.length)
    (hr : rest = [] ∨ ∃ c t, rest = c :: t ∧ RuneStart c = true) :
    (DecodeRune (v ++ rest)).2 = v.length := by
  cases v with
  | nil => exact absurd rfl hv
  | cons c t =>
    rcases DecodeRune_inv c t with ⟨hc, _⟩ | ⟨hc, he⟩ | ⟨b1, t1, rfl, _, _, h2, hall⟩ |
      ⟨b1, b2, t1, rfl, _, _, _, h3, hall⟩ | ⟨b1, b2, b3, t1, rfl, _, _, _, _, h4, hall⟩
    · rw [List.cons_append, DecodeRune_ascii c _ hc, ← hw, DecodeRune_ascii c _ hc]
    · rw [he] at hw
      have ht : t = [] := by
        simp only [List.length_cons] at hw
        exact List.eq_nil_of_length_eq_zero (by omega)
      subst ht
      rcases hr with rfl | ⟨c1, t1, rfl, hc1⟩
      · simp [he]
      · rw [RuneStart_iff] at hc1
        simp only [List.cons_append, List.nil_append, List.length_singleton]
        rcases DecodeRune_inv c (c1 :: t1) with ⟨hc', _⟩ | ⟨_, he'⟩ | ⟨b1, t2, hb, _, hcont, _⟩ |
          ⟨b1, b2, t2, hb, _, hcont, _⟩ | ⟨b1, b2, b3, t2, hb, _, hcont, _⟩
        · omega
        · rw [he']
        · simp only [List.cons.injEq] at hb; rw [hb.1] at hc1; exact absurd hcont hc1
        · simp only [List.cons.injEq] at hb; rw [hb.1] at hc1; exact absurd hcont hc1
        · simp only [List.cons.injEq] at hb; rw [hb.1] at hc1; exact absurd hcont hc1
    · rw [List.cons_append, List.cons_append, hall, hw]
    · rw [List.cons_append, List.cons_append, List.cons_append, hall, hw]
    · rw [List.cons_append, List.cons_append, List.cons_append, List.cons_append, hall, hw]

theorem DecodeRune_single (c : Nat) : (DecodeRune [c]).2 = 1 := by
  have h1 := DecodeRune_width_pos [c] (by simp)
  have h2 := DecodeRune_width_le [c]
  simp only [List.length_singleton] at h2
  omega

/-- The last rune of a non-empty string fills its last `w` bytes. -/
theorem DecodeLastRune_width (s : Str) (h : s ≠ []) :
    1 ≤ (DecodeLastRune s).2 ∧ (DecodeLastRune s).2 ≤ s.length ∧
      (DecodeRune (s.drop (s.length - (DecodeLastRune s).2))).2 = (DecodeLastRune s).2 := by
  rcases DecodeLastRune_cases s h with he | ⟨h1, h2, h3⟩
  · rw [he]
    have hl : 1 ≤ s.length := List.length_pos.2 h
    refine ⟨le_refl _, hl, ?_⟩
    rcases List.eq_nil_or_concat s with h0 | ⟨L, b, hs⟩
    · exact absurd h0 h
    · rw [List.concat_eq_append] at hs
      subst hs
      rw [drop_concat_last, DecodeRune_single]
  · exact ⟨h1, h2, by rw [h3]⟩

/-! ## Lemmas: trimming -/

theorem trimLeftLoop_fuel (f : Nat → Bool) : ∀ (n : Nat) (s : Str), s.length ≤ n →
    trimLeftLoop f n s = trimLeftLoop f s.length s := by
  intro n
  induction n using Nat.strong_induction_on with
  | _ n ih =>
    intro s hs
    cases s with
    | nil => cases n <;> simp [trimLeftLoop]
    | cons c t =>
      cases n with
      | zero => simp at hs
      | succ n =>
        have hw := DecodeRune_width_pos (c :: t) (by simp)
        simp only [trimLeftLoop, List.length_cons]
        have hl : ((c :: t).drop (DecodeRune (c :: t)).2).length ≤ t.length := by
          simp only [List.length_drop, List.length_cons]; omega
        simp only [List.length_cons] at hs
        rw [ih n (Nat.lt_succ_self n) _ (by omega)]
        by_cases hlt : t.length < n + 1
        · rw [ih t.length hlt _ hl]
        · omega

theorem TrimLeftFunc_nil (f : Nat → Bool) : TrimLeftFunc [] f = [] := rfl

theorem TrimLeftFunc_cons (f : Nat → Bool) (c : Nat) (t : Str) :
    TrimLeftFunc (c :: t) f =
      if f (DecodeRune (c :: t)).1 then TrimLeftFunc ((c :: t).drop (DecodeRune (c :: t)).2) f
      else c :: t := by
  have hw := DecodeRune_width_pos (c :: t) (by simp)
  unfold TrimLeftFunc
  simp only [trimLeftLoop, List.length_cons]
  congr 1
  apply trimLeftLoop_fuel
  simp only [List.length_drop, List.length_cons]; omega

theorem TrimLeftFunc_head (f : Nat → Bool) (hf : f RuneError = false) : ∀ (n : Nat) (s : Str),
    s.length ≤ n → f (DecodeRune (TrimLeftFunc s f)).1 = false := by
  intro n
  induction n with
  | zero =>
    intro s hs
    have : s = [] := List.eq_nil_of_length_eq_zero (by omega)
    subst this
    simpa [TrimLeftFunc_nil, DecodeRune] using hf
  | succ n ih =>
    intro s hs
    cases s with
    | nil => simpa [TrimLeftFunc_nil, DecodeRune] using hf
    | cons c t =>
      have hw := DecodeRune_width_pos (c :: t) (by simp)
      rw [TrimLeftFunc_cons]
      split_ifs with h
      · apply ih
        simp only [List.length_drop, List.length_cons] at hs ⊢; omega
      · simpa using h

theorem TrimLeftFunc_fix (f : Nat → Bool) (s : Str) (h : f (DecodeRune s).1 = false) :
    TrimLeftFunc s f = s := by
  cases s with
  | nil => rfl
  | cons c t => rw [TrimLeftFunc_cons, if_neg (by simp [h])]

theorem lastIndexFunc_fuel (f : Nat → Bool) : ∀ (n : Nat) (s : Str), s.length ≤ n →
    lastIndexFunc f n s = lastIndexFunc f s.length s := by
  intro n
  induction n using Nat.strong_induction_on with
  | _ n ih =>
    intro s hs
    cases s with
    | nil => cases n <;> simp [lastIndexFunc]
    | cons c t =>
      cases n with
      | zero => simp at hs
      | succ n =>
        have hw := (DecodeLastRune_width (c :: t) (by simp)).1
        simp only [lastIndexFunc, List.length_cons]
        have hl : ((c :: t).take (t.length + 1 - (DecodeLastRune (c :: t)).2)).length ≤ t.length := by
          simp only [List.length_take, List.length_cons]; omega
        simp only [List.length_cons] at hs
        rw [ih n (Nat.lt_succ_self n) _ (by omega)]
        by_cases hlt : t.length < n + 1
        · rw [ih t.length hlt _ hl]
        · omega

/-- The index `strings.lastIndexFunc(s, f, false)` without fuel. -/
theorem lastIndexFunc_cons (f : Nat → Bool) (c : Nat) (t : Str) :
    lastIndexFunc f (c :: t).length (c :: t) =
      if f (DecodeLastRune (c :: t)).1 then
        lastIndexFunc f ((c :: t).take ((c :: t).length - (DecodeLastRune (c :: t)).2)).length
          ((c :: t).take ((c :: t).length - (DecodeLastRune (c :: t)).2))
      else some ((c :: t).length - (DecodeLastRune (c :: t)).2) := by
  have hw := (DecodeLastRune_width (c :: t) (by simp)).1
  simp only [lastIndexFunc, List.length_cons]
  congr 1
  apply lastIndexFunc_fuel
  simp only [List.length_take, List.length_cons]; omega

theorem lastIndexFunc_spec : ∀ (n : Nat) (cur tail : Str), cur.length ≤ n →
    (tail = [] ∨ ∃ c t, tail = c :: t ∧ RuneStart c = true) →
    lastIndexFunc IsSpace cur.length cur = none ∨
    ∃ s1 rest, cur ++ tail = s1 ++ rest ∧ s1 ≠ [] ∧ IsSpace (DecodeLastRune s1).1 = false ∧
      lastIndexFunc IsSpace cur.length cur = some (s1.length - (DecodeLastRune s1).2) ∧
      (rest = [] ∨ ∃ c t, rest = c :: t ∧ RuneStart c = true) := by
  intro n
  induction n with
  | zero =>
    intro cur tail hn _
    have : cur = [] := List.eq_nil_of_length_eq_zero (by omega)
    subst this
    exact Or.inl rfl
  | succ n ih =>
    intro cur tail hn htail
    cases cur with
    | nil => exact Or.inl rfl
    | cons c t =>
      rw [lastIndexFunc_cons]
      by_cases hsp : IsSpace (DecodeLastRune (c :: t)).1 = true
      · rw [if_pos hsp]
        have hw := DecodeLastRune_width (c :: t) (by simp)
        have hdec : DecodeRune ((c :: t).drop ((c :: t).length - (DecodeLastRune (c :: t)).2)) =
            DecodeLastRune (c :: t) := by
          rcases DecodeLastRune_cases (c :: t) (by simp) with he | ⟨_, _, h3⟩
          · rw [he, IsSpace_RuneError] at hsp; exact absurd hsp (by simp)
          · exact h3
        obtain ⟨c1, t1, hd, hc1⟩ := DecodeRune_head_of_space _ (by rw [hdec]; exact hsp)
        have := ih ((c :: t).take ((c :: t).length - (DecodeLastRune (c :: t)).2))
          ((c :: t).drop ((c :: t).length - (DecodeLastRune (c :: t)).2) ++ tail)
          (by simp only [List.length_take, List.length_cons] at hn hw ⊢; omega)
          (Or.inr ⟨c1, t1 ++ tail, by rw [hd]; rfl, hc1⟩)
        rcases this with h | ⟨s1, rest, h1, h2, h3, h4, h5⟩
        · exact Or.inl h
        · refine Or.inr ⟨s1, rest, ?_, h2, h3, h4, h5⟩
          rw [← h1, ← List.append_assoc, List.take_append_drop]
      · rw [if_neg hsp]
        exact Or.inr ⟨c :: t, tail, rfl, by simp, by simpa using hsp, rfl, htail⟩

/-- The cut of `TrimRightFunc` after the last rune of `s1`. -/
theorem take_after_last (s1 rest : Str) (h2 : s1 ≠ [])
    (h5 : rest = [] ∨ ∃ c t, rest = c :: t ∧ RuneStart c = true) :
    (if (s1 ++ rest).getD (s1.length - (DecodeLastRune s1).2) 0 ≥ RuneSelf then
        (s1 ++ rest).take (s1.length - (DecodeLastRune s1).2 +
          (DecodeRune ((s1 ++ rest).drop (s1.length - (DecodeLastRune s1).2))).2)
      else (s1 ++ rest).take (s1.length - (DecodeLastRune s1).2 + 1)) = s1 := by
  obtain ⟨hw1, hw2, hw3⟩ := DecodeLastRune_width s1 h2
  generalize (DecodeLastRune s1).2 = w at *
  have hsplit : s1 = s1.take (s1.length - w) ++ s1.drop (s1.length - w) :=
    (List.take_append_drop _ _).symm
  generalize hp : s1.take (s1.length - w) = p at hsplit
  generalize hv : s1.drop (s1.length - w) = v at hsplit hw3
  have hpl : p.length = s1.length - w := by rw [← hp]; simp
  have hvl : v.length = w := by rw [← hv]; simp; omega
  have hvne : v ≠ [] := by
    intro h0; rw [h0] at hvl; simp at hvl; omega
  have hs : s1 ++ rest = p ++ (v ++ rest) := by rw [hsplit, List.append_assoc]
  have hres : List.take (s1.length - w + w) (s1 ++ rest) = s1 := by
    rw [hs, ← hpl, ← hvl, ← List.append_assoc, ← List.length_append, List.take_left', ← hsplit]
    rfl
  have hdrop : (s1 ++ rest).drop (s1.length - w) = v ++ rest := by
    rw [hs, ← hpl, List.drop_left']
    rfl
  have hwid := DecodeRune_width_append v rest hvne (by rw [hw3, hvl]) h5
  split_ifs with hge
  · rw [hdrop, hwid, hvl, hres]
  · obtain ⟨c0, t0, hc0⟩ := List.exists_cons_of_ne_nil hvne
    have hget : (s1 ++ rest).getD (s1.length - w) 0 = c0 := by
      rw [hs, ← hpl, hc0]
      simp only [List.getD_eq_getElem?_getD, List.cons_append]
      rw [List.getElem?_append_right (le_refl _)]
      simp
    rw [hget] at hge
    have hlt : c0 < 0x80 := by simp only [RuneSelf] at hge; omega
    rw [hc0, DecodeRune_ascii c0 t0 hlt] at hw3
    simp only at hw3
    rw [← hw3] at hres ⊢
    exact hres

/-- What `TrimRightFunc` returns is a prefix of the string that does not end in
white space. -/
theorem TrimRightFunc_spec (s : Str) :
    ∃ rest, s = TrimRightFunc s IsSpace ++ rest ∧
      IsSpace (DecodeLastRune (TrimRightFunc s IsSpace)).1 = false := by
  unfold TrimRightFunc
  rcases lastIndexFunc_spec s.length s [] (le_refl _) (Or.inl rfl) with h | ⟨s1, rest, h1, h2, h3, h4, h5⟩
  · rw [h]
    exact ⟨s, by simp, by simp [DecodeLastRune, IsSpace_RuneError]⟩
  · rw [h4]
    simp only [List.append_nil] at h1
    subst h1
    simp only [take_after_last s1 rest h2 h5]
    exact ⟨rest, rfl, h3⟩

theorem TrimRightFunc_fix (s : Str) (h : IsSpace (DecodeLastRune s).1 = false) :
    TrimRightFunc s IsSpace = s := by
  cases s with
  | nil => rfl
  | cons c t =>
    unfold TrimRightFunc
    rw [lastIndexFunc_cons, if_neg (by simp [h])]
    have := take_after_last (c :: t) [] (by simp) (Or.inl rfl)
    simp only [List.append_nil] at this
    simp only [this]

theorem asciiSpace_lt {c : Nat} (h : asciiSpace c = true) : c < 0x80 := by
  simp only [asciiSpace, Bool.or_eq_true, decide_eq_true_eq] at h
  omega

theorem IsSpace_ascii {c : Nat} (h : c < 0x80) : IsSpace c = asciiSpace c := by
  simp only [IsSpace, asciiSpace]
  rw [if_pos (by omega)]
  have h1 : decide (c = 0x85) = false := by simp; omega
  have h2 : decide (c = 0xA0) = false := by simp; omega
  rw [h1, h2]
  simp

theorem DecodeLastRune_ascii (L : Str) (b : Nat) (h : b < 0x80) :
    DecodeLastRune (L ++ [b]) = (b, 1) := by
  unfold DecodeLastRune
  simp only []
  have hlen : ((L ++ [b]).length : Int) ≠ 0 := by simp; omega
  rw [if_neg hlen, getD_concat_last, if_pos (by simpa [RuneSelf] using h)]

/-! ## Lemmas: strings.TrimSpace -/

theorem dropWhile_head_not (s : Str) (c : Nat) (t : Str) (h : s.dropWhile asciiSpace = c :: t) :
    asciiSpace c = false := by
  have := List.head_dropWhile_not asciiSpace s (by rw [h]; simp)
  simpa [h] using this

theorem rdropWhile_cons_ne_nil (c : Nat) (t : Str) (hc : asciiSpace c = false) :
    ∃ t1 rest, (c :: t).rdropWhile asciiSpace = c :: t1 ∧ c :: t = c :: t1 ++ rest := by
  obtain ⟨rest, hrest⟩ := List.rdropWhile_prefix asciiSpace (c :: t)
  cases hr : (c :: t).rdropWhile asciiSpace with
  | nil =>
    rw [List.rdropWhile_eq_nil_iff] at hr
    have := hr c (by simp)
    rw [hc] at this
    exact absurd this (by simp)
  | cons x t1 =>
    rw [hr] at hrest
    simp only [List.cons_append, List.cons.injEq] at hrest
    obtain ⟨rfl, ht⟩ := hrest
    exact ⟨t1, rest, rfl, by simp [ht]⟩

theorem getLast?_eq_some_concat (s : Str) (d : Nat) (h : s.getLast? = some d) :
    ∃ L, s = L ++ [d] := by
  rcases List.eq_nil_or_concat s with h0 | ⟨L, b, hs⟩
  · subst h0; simp at h
  · rw [List.concat_eq_append] at hs
    subst hs
    simp at h
    exact ⟨L, by rw [h]⟩

theorem rdropWhile_last_not (s L : Str) (d : Nat) (h : s.rdropWhile asciiSpace = L ++ [d]) :
    asciiSpace d = false := by
  have := List.rdropWhile_last_not asciiSpace s (by rw [h]; simp)
  simpa [h] using this

/-- The result of `TrimSpace` does not begin with white space. -/
theorem TrimSpace_noLead (z : Str) : IsSpace (DecodeRune (TrimSpace z)).1 = false := by
  unfold TrimSpace
  split
  · simp [DecodeRune, IsSpace_RuneError]
  · rename_i c t hd
    have hc := dropWhile_head_not z c t hd
    split_ifs with hge
    · unfold TrimFunc
      obtain ⟨rest, h1, _⟩ := TrimRightFunc_spec (TrimLeftFunc (c :: t) IsSpace)
      have h2 := TrimLeftFunc_head IsSpace IsSpace_RuneError _ (c :: t) (le_refl _)
      by_contra hcon
      have hsp : IsSpace (DecodeRune (TrimRightFunc (TrimLeftFunc (c :: t) IsSpace) IsSpace)).1
          = true := by simpa using hcon
      have hne : (DecodeRune (TrimRightFunc (TrimLeftFunc (c :: t) IsSpace) IsSpace)).1
          ≠ RuneError := by
        intro he; rw [he, IsSpace_RuneError] at hsp; exact absurd hsp (by simp)
      have := DecodeRune_append _ rest hne
      rw [← h1] at this
      rw [this, hsp] at h2
      exact absurd h2 (by simp)
    · have hlt : c < 0x80 := by simp only [RuneSelf] at hge; omega
      have hcs : IsSpace c = false := by rw [IsSpace_ascii hlt]; exact hc
      obtain ⟨t1, rest, hr, _⟩ := rdropWhile_cons_ne_nil c t hc
      rw [hr]
      split
      · simp [DecodeRune, IsSpace_RuneError]
      · split_ifs
        · obtain ⟨rest2, h1, _⟩ := TrimRightFunc_spec (c :: t1)
          cases hT : TrimRightFunc (c :: t1) IsSpace with
          | nil => simp [DecodeRune, IsSpace_RuneError]
          | cons x t2 =>
            rw [hT] at h1
            simp only [List.cons_append, List.cons.injEq] at h1
            rw [← h1.1, DecodeRune_ascii c t2 hlt]
            exact hcs
        · rw [DecodeRune_ascii c t1 hlt]
          exact hcs

/-- The result of `TrimSpace` does not end in white space. -/
theorem TrimSpace_noTrail (z : Str) : IsSpace (DecodeLastRune (TrimSpace z)).1 = false := by
  unfold TrimSpace
  split
  · simp [DecodeLastRune, IsSpace_RuneError]
  · rename_i c t hd
    split_ifs with hge
    · exact (TrimRightFunc_spec _).choose_spec.2
    · split
      · simp [DecodeLastRune, IsSpace_RuneError]
      · rename_i d hlast
        obtain ⟨L, hL⟩ := getLast?_eq_some_concat _ d hlast
        split_ifs with hd2
        · exact (TrimRightFunc_spec _).choose_spec.2
        · have hlt : d < 0x80 := by simp only [RuneSelf] at hd2; omega
          rw [hL, DecodeLastRune_ascii L d hlt]
          simp only
          rw [IsSpace_ascii hlt]
          exact rdropWhile_last_not _ L d hL

/-- A string that neither begins nor ends with white space is left as it is. -/
theorem TrimSpace_fix (w : Str) (h1 : IsSpace (DecodeRune w).1 = false)
    (h2 : IsSpace (DecodeLastRune w).1 = false) : TrimSpace w = w := by
  cases w with
  | nil => rfl
  | cons c t =>
    have hc : asciiSpace c = false := by
      by_cases hlt : c < 0x80
      · rw [DecodeRune_ascii c t hlt] at h1
        rw [← IsSpace_ascii hlt]; exact h1
      · by_contra hcon
        have := asciiSpace_lt (by simpa using hcon)
        exact hlt this
    have hdw : (c :: t).dropWhile asciiSpace = c :: t := by
      simp [List.dropWhile_cons, hc]
    unfold TrimSpace
    rw [hdw]
    simp only []
    split_ifs with hge
    · unfold TrimFunc
      rw [TrimLeftFunc_fix IsSpace _ h1, TrimRightFunc_fix _ h2]
    · obtain ⟨L, d, hLd⟩ : ∃ L d, c :: t = L ++ [d] := by
        rcases List.eq_nil_or_concat (c :: t) with h0 | ⟨L, b, hs⟩
        · simp at h0
        · exact ⟨L, b, by rw [hs, List.concat_eq_append]⟩
      have hd : asciiSpace d = false := by
        by_cases hlt : d < 0x80
        · rw [hLd, DecodeLastRune_ascii L d hlt] at h2
          rw [← IsSpace_ascii hlt]; exact h2
        · by_contra hcon
          have := asciiSpace_lt (by simpa using hcon)
          exact hlt this
      have hrd : (c :: t).rdropWhile asciiSpace = c :: t := by
        rw [hLd, List.rdropWhile_concat_neg _ _ _ (by simp [hd])]
      rw [hrd]
      have hl : (c :: t).getLast? = some d := by rw [hLd]; simp
      rw [hl]
      simp only []
      split_ifs
      · exact TrimRightFunc_fix _ h2
      · rfl

theorem TrimSpace_idem (z : Str) : TrimSpace (TrimSpace z) = TrimSpace z :=
  TrimSpace_fix _ (TrimSpace_noLead z) (TrimSpace_noTrail z)

/-- A string that does not end in white space is left as it is by `TrimRight`
with the cutset of `clean`. -/
theorem TrimRight_fix (w : Str) (h : IsSpace (DecodeLastRune w).1 = false) :
    TrimRight w (str "\r\n\t ") = w := by
  rcases List.eq_nil_or_concat w with h0 | ⟨L, b, hs⟩
  · subst h0; rfl
  · rw [List.concat_eq_append] at hs
    subst hs
    unfold TrimRight
    apply List.rdropWhile_concat_neg
    intro hb
    have hmem : b = 13 ∨ b = 10 ∨ b = 9 ∨ b = 32 := by
      have : (str "\r\n\t ") = [13, 10, 9, 32] := by decide
      rw [this] at hb
      simpa using hb
    have hlt : b < 0x80 := by omega
    rw [DecodeLastRune_ascii L b hlt] at h
    simp only at h
    rw [IsSpace_ascii hlt] at h
    simp only [asciiSpace, Bool.or_eq_false_iff, decide_eq_false_iff_not] at h
    omega

theorem lastRuneStart_found (s : Str) (lim : Int) (n : Nat) (st : Int) (h1 : lim ≤ st)
    (h2 : RuneStart (s.getD st.toNat 0) = true) : lastRuneStart s lim (n + 1) st = st := by
  simp only [lastRuneStart]
  rw [if_neg (by omega), if_pos h2]

theorem lastRuneStart_skip (s : Str) (lim : Int) (n : Nat) (st : Int) (h1 : lim ≤ st)
    (h2 : RuneStart (s.getD st.toNat 0) = false) :
    lastRuneStart s lim (n + 1) st = lastRuneStart s lim n (st - 1) := by
  simp only [lastRuneStart]
  rw [if_neg (by omega), if_neg (by rw [h2]; simp)]

theorem getD_append_add (y rest : Str) (k : Nat) :
    (y ++ rest).getD (y.length + k) 0 = rest.getD k 0 := by
  simp only [List.getD_eq_getElem?_getD]
  rw [List.getElem?_append_right (by omega)]
  simp

/-- The common part of decoding the last rune when the search for its start
ends at `y.length`. -/
theorem DecodeLastRune_at (y v : Str) (hv : 2 ≤ v.length) (hlast : ¬ (y ++ v).getD ((y ++ v).length - 1) 0 < RuneSelf)
    (hstart : lastRuneStart (y ++ v)
      (if ((y ++ v).length : Int) - 4 < 0 then 0 else ((y ++ v).length : Int) - 4) 4
      (((y ++ v).length : Int) - 1 - 1) = (y.length : Int))
    (hw : (DecodeRune v).2 = v.length) : DecodeLastRune (y ++ v) = DecodeRune v := by
  unfold DecodeLastRune
  simp only []
  have hlen : ((y ++ v).length : Int) ≠ 0 := by simp; omega
  rw [if_neg hlen, if_neg hlast, hstart]
  have h0 : ¬ ((y.length : Int) < 0) := by omega
  rw [if_neg h0]
  simp only [Int.toNat_ofNat, List.drop_left']
  rw [if_neg]
  simp only [ne_eq, not_not, hw, List.length_append]
  push_cast
  rfl

theorem RuneStart_of_lead {c : Nat} (h : 0xC2 ≤ c) : RuneStart c = true := by
  rw [RuneStart_iff]; unfold isCont; omega

theorem RuneStart_of_cont {c : Nat} (h : isCont c) : RuneStart c = false := by
  have := (RuneStart_iff c).not.2 (by simpa using h)
  simpa using this

theorem DecodeLastRune_append_valid (y v : Str) (hv : v ≠ []) (hw : (DecodeRune v).2 = v.length)
    (hne : (DecodeRune v).1 ≠ RuneError) : DecodeLastRune (y ++ v) = DecodeRune v := by
  cases v with
  | nil => exact absurd rfl hv
  | cons c t =>
    rcases DecodeRune_inv c t with ⟨hc, he⟩ | ⟨_, he⟩ | ⟨b1, t1, rfl, hc, hb1, h2, _⟩ |
      ⟨b1, b2, t1, rfl, hc, hb1, hb2, h3, _⟩ | ⟨b1, b2, b3, t1, rfl, hc, hb1, hb2, hb3, h4, _⟩
    · rw [he] at hw
      have ht : t = [] := by
        simp only [List.length_cons] at hw
        exact List.eq_nil_of_length_eq_zero (by omega)
      subst ht
      rw [DecodeLastRune_ascii y c hc, he]
    · rw [he] at hne; exact absurd rfl hne
    · have ht : t1 = [] := by
        rw [h2] at hw; simp only [List.length_cons] at hw
        exact List.eq_nil_of_length_eq_zero (by omega)
      subst ht
      apply DecodeLastRune_at y [c, b1] (by simp) _ _ hw
      · have := getD_append_add y [c, b1] 1
        simp only [List.length_append, List.length_cons, List.length_nil] at this ⊢
        rw [show y.length + (0 + 1 + 1) - 1 = y.length + 1 by omega, this]
        unfold isCont at hb1
        simp [RuneSelf]; omega
      · simp only [List.length_append, List.length_cons, List.length_nil]
        push_cast
        rw [show ((y.length : Int) + 2 - 1 - 1) = (y.length : Int) by omega]
        apply lastRuneStart_found
        · split_ifs <;> omega
        · have := getD_append_add y [c, b1] 0
          simp only [Nat.add_zero] at this
          rw [Int.toNat_ofNat, this]
          exact RuneStart_of_lead hc
    · have ht : t1 = [] := by
        rw [h3] at hw; simp only [List.length_cons] at hw
        exact List.eq_nil_of_length_eq_zero (by omega)
      subst ht
      apply DecodeLastRune_at y [c, b1, b2] (by simp) _ _ hw
      · have := getD_append_add y [c, b1, b2] 2
        simp only [List.length_append, List.length_cons, List.length_nil] at this ⊢
        rw [show y.length + (0 + 1 + 1 + 1) - 1 = y.length + 2 by omega, this]
        unfold isCont at hb2
        simp [RuneSelf]; omega
      · simp only [List.length_append, List.length_cons, List.length_nil]
        push_cast
        rw [show ((y.length : Int) + 3 - 1 - 1) = ((y.length + 1 : Nat) : Int) by
          push_cast; omega]
        rw [lastRuneStart_skip]
        · rw [show (((y.length + 1 : Nat) : Int) - 1) = (y.length : Int) by push_cast; omega]
          apply lastRuneStart_found
          · split_ifs <;> omega
          · have := getD_append_add y [c, b1, b2] 0
            simp only [Nat.add_zero] at this
            rw [Int.toNat_ofNat, this]
            exact RuneStart_of_lead hc
        · split_ifs <;> push_cast <;> omega
        · have := getD_append_add y [c, b1, b2] 1
          rw [Int.toNat_ofNat, this]
          exact RuneStart_of_cont hb1
    · have ht : t1 = [] := by
        rw [h4] at hw; simp only [List.length_cons] at hw
        exact List.eq_nil_of_length_eq_zero (by omega)
      subst ht
      apply DecodeLastRune_at y [c, b1, b2, b3] (by simp) _ _ hw
      · have := getD_append_add y [c, b1, b2, b3] 3
        simp only [List.length_append, List.length_cons, List.length_nil] at this ⊢
        rw [show y.length + (0 + 1 + 1 + 1 + 1) - 1 = y.length + 3 by omega, this]
        unfold isCont at hb3
        simp [RuneSelf]; omega
      · simp only [List.length_append, List.length_cons, List.length_nil]
        push_cast
        rw [show ((y.length : Int) + 4 - 1 - 1) = ((y.length + 2 : Nat) : Int) by
          push_cast; omega]
        rw [lastRuneStart_skip]
        · rw [show (((y.length + 2 : Nat) : Int) - 1) = ((y.length + 1 : Nat) : Int) by
            push_cast; omega]
          rw [lastRuneStart_skip]
          · rw [show (((y.length + 1 : Nat) : Int) - 1) = (y.length : Int) by push_cast; omega]
            apply lastRuneStart_found
            · split_ifs <;> omega
            · have := getD_append_add y [c, b1, b2, b3] 0
              simp only [Nat.add_zero] at this
              rw [Int.toNat_ofNat, this]
              exact RuneStart_of_lead hc
          · split_ifs <;> push_cast <;> omega
          · have := getD_append_add y [c, b1, b2, b3] 1
            rw [Int.toNat_ofNat, this]
            exact RuneStart_of_cont hb1
        · split_ifs <;> push_cast <;> omega
        · have := getD_append_add y [c, b1, b2, b3] 2
          rw [Int.toNat_ofNat, this]
          exact RuneStart_of_cont hb2

theorem DecodeLastRune_append (x u : Str) (h : IsSpace (DecodeLastRune u).1 = true) :
    DecodeLastRune (x ++ u) = DecodeLastRune u := by
  have hu : u ≠ [] := by
    intro h0; subst h0
    simp [DecodeLastRune, IsSpace_RuneError] at h
  rcases DecodeLastRune_cases u hu with he | ⟨h1, h2, h3⟩
  · rw [he, IsSpace_RuneError] at h; exact absurd h (by simp)
  · have hsplit : u = u.take (u.length - (DecodeLastRune u).2) ++
        u.drop (u.length - (DecodeLastRune u).2) := (List.take_append_drop _ _).symm
    have hvl : (u.drop (u.length - (DecodeLastRune u).2)).length = (DecodeLastRune u).2 := by
      simp only [List.length_drop]; omega
    have hvne : u.drop (u.length - (DecodeLastRune u).2) ≠ [] := by
      intro h0; rw [h0] at hvl; simp at hvl; omega
    have key := DecodeLastRune_append_valid (x ++ u.take (u.length - (DecodeLastRune u).2))
      (u.drop (u.length - (DecodeLastRune u).2)) hvne (by rw [h3, hvl])
      (by rw [h3]; intro he; rw [he, IsSpace_RuneError] at h; exact absurd h (by simp))
    rw [List.append_assoc, ← hsplit, h3] at key
    exact key

theorem noTrail_of_append (x u : Str) (h : IsSpace (DecodeLastRune (x ++ u)).1 = false) :
    IsSpace (DecodeLastRune u).1 = false := by
  by_contra hcon
  have hsp : IsSpace (DecodeLastRune u).1 = true := by simpa using hcon
  rw [DecodeLastRune_append x u hsp, hsp] at h
  exact absurd h (by simp)

theorem stripped_cases (tbl : List CaseRange) (u : Str) (ps : List Str) :
    stripped tbl u ps = u ∨ ∃ z, stripped tbl u ps = TrimSpace z := by
  induction ps with
  | nil => exact Or.inl rfl
  | cons p ps ih =>
    simp only [stripped]
    split_ifs
    · exact Or.inr ⟨_, rfl⟩
    · exact ih

theorem stripped_none (tbl : List CaseRange) (u : Str) (ps : List Str)
    (h : ∀ p ∈ ps, HasPrefix (ToUpper tbl u) p = false) : stripped tbl u ps = u := by
  induction ps with
  | nil => rfl
  | cons p ps ih =>
    simp only [stripped]
    rw [if_neg (by rw [h p (by simp)]; simp)]
    exact ih (fun q hq => h q (by simp [hq]))

theorem unmarked_noTrail (s : Str) : IsSpace (DecodeLastRune (unmarked s)).1 = false := by
  unfold unmarked
  split_ifs with hb
  · obtain ⟨t, ht⟩ := (HasPrefix_iff _ _).1 hb
    have hd : (TrimSpace s).drop 3 = t := by
      rw [ht, ← bom_length, List.drop_left']
      rfl
    rw [hd]
    apply noTrail_of_append bom t
    rw [← ht]
    exact TrimSpace_noTrail s
  · exact TrimSpace_noTrail s

/-- The result of `clean` does not end in white space, and the final `TrimRight`
of `clean` has nothing to remove. -/
theorem clean_noTrail (tbl : List CaseRange) (s y : Str) (hy : clean tbl s = some y) :
    IsSpace (DecodeLastRune y).1 = false ∧ y = stripped tbl (unmarked s) scannerPrefixes := by
  rw [clean_eq] at hy
  simp only [Option.some.injEq] at hy
  have hq : IsSpace (DecodeLastRune (stripped tbl (unmarked s) scannerPrefixes)).1 = false := by
    rcases stripped_cases tbl (unmarked s) scannerPrefixes with h | ⟨z, h⟩
    · rw [h]; exact unmarked_noTrail s
    · rw [h]; exact TrimSpace_noTrail z
  rw [TrimRight_fix _ hq] at hy
  rw [← hy]
  exact ⟨hq, rfl⟩

theorem unmarked_fix (y : Str) (h1 : IsSpace (DecodeRune y).1 = false)
    (h2 : IsSpace (DecodeLastRune y).1 = false) (h3 : HasPrefix y bom = false) :
    unmarked y = y := by
  unfold unmarked
  rw [TrimSpace_fix y h1 h2, if_neg (by rw [h3]; simp)]

theorem clean_fix (tbl : List CaseRange) (y : Str) (h1 : IsSpace (DecodeRune y).1 = false)
    (h2 : IsSpace (DecodeLastRune y).1 = false) (h3 : HasPrefix y bom = false)
    (h4 : ∀ p ∈ scannerPrefixes, HasPrefix (ToUpper tbl y) p = false) :
    clean tbl y = some y := by
  rw [clean_eq, unmarked_fix y h1 h2 h3, stripped_none tbl y _ h4, TrimRight_fix y h2]

theorem clean_TrimSpace (tbl : List CaseRange) (line : Str) :
    clean tbl (TrimSpace line) = clean tbl line := by
  rw [clean_eq, clean_eq]
  unfold unmarked
  rw [TrimSpace_idem]

/-! ## Lemmas: lower-casing keeps ASCII text -/

theorem DecodeRune_append_ascii (a : Str) (c : Nat) (b : Str) (ha : a ≠ []) (hc : c < 0x80) :
    DecodeRune (a ++ c :: b) = DecodeRune a := by
  cases a with
  | nil => exact absurd rfl ha
  | cons x t =>
    have hnc : ¬ isCont c := by unfold isCont; omega
    rcases DecodeRune_inv x t with ⟨hx, he⟩ | ⟨hx, he⟩ | ⟨b1, t1, rfl, _, _, _, hall⟩ |
      ⟨b1, b2, t1, rfl, _, _, _, _, hall⟩ | ⟨b1, b2, b3, t1, rfl, _, _, _, _, _, hall⟩
    · rw [List.cons_append, DecodeRune_ascii x _ hx, he]
    · rw [he, List.cons_append]
      rcases DecodeRune_inv x (t ++ c :: b) with ⟨hx', _⟩ | ⟨_, he'⟩ | ⟨b1, t1, hb, _, hb1, h2, hall⟩ |
        ⟨b1, b2, t1, hb, _, hb1, hb2, h3, hall⟩ | ⟨b1, b2, b3, t1, hb, _, hb1, hb2, hb3, h4, hall⟩
      · omega
      · exact he'
      · exfalso
        cases t with
        | nil => simp at hb; exact hnc (hb.1 ▸ hb1)
        | cons y t =>
          simp only [List.cons_append, List.cons.injEq] at hb
          have := hall t
          rw [← hb.1, he] at this
          rw [← this] at h2
          simp at h2
      · exfalso
        cases t with
        | nil => simp at hb; exact hnc (hb.1 ▸ hb1)
        | cons y t =>
          cases t with
          | nil => simp at hb; exact hnc (hb.2.1 ▸ hb2)
          | cons y2 t =>
            simp only [List.cons_append, List.cons.injEq] at hb
            have := hall t
            rw [← hb.1, ← hb.2.1, he] at this
            rw [← this] at h3
            simp at h3
      · exfalso
        cases t with
        | nil => simp at hb; exact hnc (hb.1 ▸ hb1)
        | cons y t =>
          cases t with
          | nil => simp at hb; exact hnc (hb.2.1 ▸ hb2)
          | cons y2 t =>
            cases t with
            | nil => simp at hb; exact hnc (hb.2.2.1 ▸ hb3)
            | cons y3 t =>
              simp only [List.cons_append, List.cons.injEq] at hb
              have := hall t
              rw [← hb.1, ← hb.2.1, ← hb.2.2.1, he] at this
              rw [← this] at h4
              simp at h4
    · exact hall (t1 ++ c :: b)
    · exact hall (t1 ++ c :: b)
    · exact hall (t1 ++ c :: b)

theorem Map_append_ascii (f : Nat → Nat) (c : Nat) (b : Str) (hc : c < 0x80) :
    ∀ (n : Nat) (a : Str), a.length ≤ n →
      Map f (a ++ c :: b) = Map f a ++ (EncodeRune (f c) ++ Map f b) := by
  intro n
  induction n with
  | zero =>
    intro a ha
    have : a = [] := List.eq_nil_of_length_eq_zero (by omega)
    subst this
    rw [List.nil_append, Map_cons, DecodeRune_ascii c b hc, Map_nil]
    rfl
  | succ n ih =>
    intro a ha
    cases a with
    | nil =>
      rw [List.nil_append, Map_cons, DecodeRune_ascii c b hc, Map_nil]
      rfl
    | cons x t =>
      have hw := DecodeRune_width_pos (x :: t) (by simp)
      have hle := DecodeRune_width_le (x :: t)
      rw [List.cons_append, Map_cons, ← List.cons_append,
        DecodeRune_append_ascii (x :: t) c b (by simp) hc,
        List.drop_append_of_le_length hle, Map_cons f x t, List.append_assoc]
      congr 1
      apply ih
      simp only [List.length_drop, List.length_cons] at ha ⊢
      omega

theorem Map_ascii_list (f : Nat → Nat) (b : Str) : ∀ (sub : Str), (∀ c ∈ sub, c < 0x80) →
    Map f (sub ++ b) = sub.flatMap (fun c => EncodeRune (f c)) ++ Map f b := by
  intro sub
  induction sub with
  | nil => intro _; rfl
  | cons c sub ih =>
    intro h
    rw [List.cons_append, Map_cons, DecodeRune_ascii c _ (h c (by simp))]
    simp only [List.drop_succ_cons, List.drop_zero, List.flatMap_cons, List.append_assoc]
    rw [ih (fun x hx => h x (by simp [hx]))]

theorem Map_append_ascii_list (f : Nat → Nat) (a b : Str) (c : Nat) (sub : Str)
    (h : ∀ x ∈ c :: sub, x < 0x80) :
    Map f (a ++ (c :: sub) ++ b) =
      Map f a ++ (c :: sub).flatMap (fun c => EncodeRune (f c)) ++ Map f b := by
  have h2 := Map_append_ascii f c (sub ++ b) (h c (by simp)) a.length a (le_refl _)
  rw [Map_ascii_list f b sub (fun x hx => h x (by simp [hx]))] at h2
  simp only [List.append_assoc, List.cons_append, List.flatMap_cons] at h2 ⊢
  exact h2

theorem carbon_bytes : str "carbon.ms" = [99, 97, 114, 98, 111, 110, 46, 109, 115] := by decide

/-- Lower-casing keeps an occurrence of `carbon.ms`. -/
theorem Contains_ToLower (tbl : List CaseRange) (u : Str)
    (h : Contains u (str "carbon.ms") = true) :
    Contains (ToLower tbl u) (str "carbon.ms") = true := by
  obtain ⟨a, b, rfl⟩ := (Contains_iff _ _).1 h
  rw [Contains_iff]
  unfold ToLower
  split_ifs
  · refine ⟨a.map (fun c => if 0x41 ≤ c ∧ c ≤ 0x5A then c + 0x20 else c),
      b.map (fun c => if 0x41 ≤ c ∧ c ≤ 0x5A then c + 0x20 else c), ?_⟩
    rw [List.map_append, List.map_append]
    congr 2
  · exact ⟨a, b, rfl⟩
  · refine ⟨Map (unicodeToLower tbl) a, Map (unicodeToLower tbl) b, ?_⟩
    rw [carbon_bytes, Map_append_ascii_list _ a b _ _ (by decide)]
    congr 2

/-! ## Lemmas: regexp -/

theorem runeEnds_mem {p : Nat → Bool} {s rest : Str} (h : rest ∈ runeEnds p s) :
    s ≠ [] ∧ p (DecodeRune s).1 = true ∧ rest = s.drop (DecodeRune s).2 := by
  unfold runeEnds at h
  split at h
  · simp at h
  · split_ifs at h with hp
    · simp at h; exact ⟨by simp, hp, h⟩
    · simp at h

theorem starEnds_suffix (p : Nat → Bool) : ∀ (n : Nat) (s rest : Str), rest ∈ starEnds p n s →
    ∃ u, s = u ++ rest := by
  intro n
  induction n with
  | zero => intro s rest h; simp [starEnds] at h; exact ⟨[], by simp [h]⟩
  | succ n ih =>
    intro s rest h
    simp only [starEnds, List.mem_append, List.mem_flatMap, List.mem_singleton] at h
    rcases h with ⟨s1, h1, h2⟩ | h
    · obtain ⟨_, _, hs1⟩ := runeEnds_mem h1
      obtain ⟨u, hu⟩ := ih s1 rest h2
      refine ⟨s.take (DecodeRune s).2 ++ u, ?_⟩
      rw [List.append_assoc, ← hu, hs1, List.take_append_drop]
    · exact ⟨[], by simp [h]⟩

theorem ends_suffix (re : Re) : ∀ (s rest : Str), rest ∈ re.ends s → ∃ u, s = u ++ rest := by
  induction re with
  | empty => intro s rest h; simp [Re.ends] at h; exact ⟨[], by simp [h]⟩
  | rune p =>
    intro s rest h
    obtain ⟨_, _, hs1⟩ := runeEnds_mem h
    exact ⟨s.take (DecodeRune s).2, by rw [hs1, List.take_append_drop]⟩
  | cat a b iha ihb =>
    intro s rest h
    simp only [Re.ends, List.mem_flatMap] at h
    obtain ⟨s1, h1, h2⟩ := h
    obtain ⟨u1, hu1⟩ := iha s s1 h1
    obtain ⟨u2, hu2⟩ := ihb s1 rest h2
    exact ⟨u1 ++ u2, by rw [hu1, hu2, List.append_assoc]⟩
  | quest a iha =>
    intro s rest h
    simp only [Re.ends, List.mem_append, List.mem_singleton] at h
    rcases h with h | h
    · exact iha s rest h
    · exact ⟨[], by simp [h]⟩
  | star p => intro s rest h; exact starEnds_suffix p _ s rest h
  | plus p =>
    intro s rest h
    simp only [Re.ends, List.mem_flatMap] at h
    obtain ⟨s1, h1, h2⟩ := h
    obtain ⟨_, _, hs1⟩ := runeEnds_mem h1
    obtain ⟨u, hu⟩ := starEnds_suffix p _ s1 rest h2
    refine ⟨s.take (DecodeRune s).2 ++ u, ?_⟩
    rw [List.append_assoc, ← hu, hs1, List.take_append_drop]

theorem first_bound {s0 sz lo hi : Nat} (h : first s0 = some (sz, lo, hi)) :
    (sz = 2 ∧ 2 ≤ s0 % 32) ∨ (sz = 3 ∧ (1 ≤ s0 % 16 ∨ 0xA0 ≤ lo)) ∨
      (sz = 4 ∧ (1 ≤ s0 % 8 ∨ 0x90 ≤ lo)) := by
  unfold first at h
  split_ifs at h <;> simp at h <;> omega

theorem DecodeRune_short_bound (x : Nat) (t : Str) (hx : ¬ x < 0x80) (ht : t.length ≤ 3) :
    0x80 ≤ (DecodeRune (x :: t)).1 := by
  have hx1 : ¬ x < RuneSelf := hx
  cases hf : first x with
  | none => simp [DecodeRune, hx1, hf, RuneError]
  | some v =>
    obtain ⟨sz, lo, hi⟩ := v
    have hb := first_bound hf
    have hs := first_some hf
    match t, ht with
    | [], _ =>
      simp only [DecodeRune, hx1, hf, if_false, List.length_cons, List.length_nil]
      split_ifs <;> simp [RuneError]
    | [b1], _ =>
      simp only [DecodeRune, hx1, hf, if_false, List.length_cons, List.length_nil]
      split_ifs <;> simp only [RuneError] <;> omega
    | [b1, b2], _ =>
      simp only [DecodeRune, hx1, hf, if_false, List.length_cons, List.length_nil]
      split_ifs <;> simp only [RuneError] <;> omega
    | [b1, b2, b3], _ =>
      simp only [DecodeRune, hx1, hf, if_false, List.length_cons, List.length_nil]
      split_ifs <;> simp only [RuneError] <;> omega

/-- A rune below `RuneSelf` is decoded from one byte, the rune itself. -/
theorem DecodeRune_lt_RuneSelf (x : Nat) (t : Str) (h : (DecodeRune (x :: t)).1 < 0x80) :
    x < 0x80 := by
  by_contra hx
  rcases DecodeRune_inv x t with ⟨hc, _⟩ | ⟨_, he⟩ | ⟨b1, t1, rfl, _, _, _, hall⟩ |
    ⟨b1, b2, t1, rfl, _, _, _, _, hall⟩ | ⟨b1, b2, b3, t1, rfl, _, _, _, _, _, hall⟩
  · exact hx hc
  · rw [he] at h; simp [RuneError] at h
  · rw [← hall []] at h
    have := DecodeRune_short_bound x [b1] hx (by simp)
    omega
  · rw [← hall []] at h
    have := DecodeRune_short_bound x [b1, b2] hx (by simp)
    omega
  · rw [← hall []] at h
    have := DecodeRune_short_bound x [b1, b2, b3] hx (by simp)
    omega

theorem lit_ends {c : Char} (hc : c.toNat < 0x80) {s rest : Str} (h : rest ∈ (Re.lit c).ends s) :
    s = c.toNat :: rest := by
  obtain ⟨hne, hp, hr⟩ := runeEnds_mem h
  obtain ⟨x, t, rfl⟩ := List.exists_cons_of_ne_nil hne
  simp only [decide_eq_true_eq] at hp
  have hx : x < 0x80 := DecodeRune_lt_RuneSelf x t (by rw [hp]; exact hc)
  rw [DecodeRune_ascii x t hx] at hp hr
  simp only at hp hr
  rw [hr, hp]
  rfl

theorem lits_ends (k : Re) : ∀ (cs : List Char), (∀ c ∈ cs, c.toNat < 0x80) →
    ∀ (s rest : Str), rest ∈ (cs.foldr (fun c k1 => Re.cat (Re.lit c) k1) k).ends s →
      ∃ s1, s = cs.map Char.toNat ++ s1 ∧ rest ∈ k.ends s1 := by
  intro cs
  induction cs with
  | nil => intro _ s rest h; exact ⟨s, rfl, h⟩
  | cons c cs ih =>
    intro hcs s rest h
    simp only [List.foldr_cons, Re.ends, List.mem_flatMap] at h
    obtain ⟨s1, h1, h2⟩ := h
    have hs := lit_ends (hcs c (by simp)) h1
    obtain ⟨s2, hs2, hk⟩ := ih (fun x hx => hcs x (by simp [hx])) s1 rest h2
    exact ⟨s2, by rw [hs, hs2]; rfl, hk⟩

theorem carbonRe_ends (s rest : Str) (h : rest ∈ carbonRe.ends s) :
    ∃ u1 u2, s = u1 ++ str "carbon.ms" ++ u2 ++ rest := by
  change rest ∈ ((Re.star hostClass).ends s).flatMap
    (fun s1 => (Re.lits "carbon.ms" (Re.star urlClass)).ends s1) at h
  rw [List.mem_flatMap] at h
  obtain ⟨s1, h1, h2⟩ := h
  obtain ⟨u1, hu1⟩ := starEnds_suffix _ _ s s1 h1
  obtain ⟨s2, hs2, hk⟩ := lits_ends (Re.star urlClass) "carbon.ms".toList (by decide) s1 rest h2
  obtain ⟨u2, hu2⟩ := starEnds_suffix _ _ s2 rest hk
  refine ⟨u1, u2, ?_⟩
  have hcs : "carbon.ms".toList.map Char.toNat = str "carbon.ms" := by decide
  rw [hu1, hs2, hu2, hcs]
  simp only [List.append_assoc]

theorem find_spec (re : Re) : ∀ (n : Nat) (s m rest : Str), re.find n s = some (m, rest) →
    ∃ pre, s = pre ++ (m ++ rest) ∧ rest ∈ re.ends (m ++ rest) := by
  intro n
  induction n with
  | zero => intro s m rest h; simp [Re.find] at h
  | succ n ih =>
    intro s m rest h
    simp only [Re.find] at h
    cases hh : (re.ends s).head? with
    | some r =>
      rw [hh] at h
      simp only [Option.some.injEq, Prod.mk.injEq] at h
      obtain ⟨hm, rfl⟩ := h
      have hmem : r ∈ re.ends s := List.mem_of_mem_head? hh
      obtain ⟨u, hu⟩ := ends_suffix re s r hmem
      have : m = u := by
        rw [← hm, hu]
        simp
      subst this
      exact ⟨[], by simp [hu], by rw [← hu]; exact hmem⟩
    | none =>
      rw [hh] at h
      cases s with
      | nil => simp at h
      | cons x t =>
        simp only at h
        obtain ⟨pre, hp, hr⟩ := ih _ m rest h
        refine ⟨(x :: t).take (DecodeRune (x :: t)).2 ++ pre, ?_, hr⟩
        rw [List.append_assoc, ← hp, List.take_append_drop]

/-- The capture of `carbonRe` holds the literal `carbon.ms`. -/
theorem FindStringSubmatch_carbon (L c : Str) (h : c ∈ FindStringSubmatch carbonRe L) :
    Contains c (str "carbon.ms") = true := by
  unfold FindStringSubmatch at h
  split at h
  · simp at h
  · rename_i m rest hf
    have hc : c = m := by simpa using h
    subst hc
    obtain ⟨pre, _, hr⟩ := find_spec carbonRe _ L c rest hf
    obtain ⟨u1, u2, hu⟩ := carbonRe_ends _ rest hr
    have : c = u1 ++ str "carbon.ms" ++ u2 := List.append_cancel_right hu
    rw [Contains_iff]
    exact ⟨u1, u2, this⟩

theorem processScannedLine_eq_opensOf (tbl : List CaseRange) (parse : Str → Option URL)
    (line L : Str) (hL : clean tbl line = some L) :
    processScannedLine tbl parse line = some (opensOf tbl parse L) :=
  processScannedLine_eq tbl parse line L (by rw [clean_TrimSpace]; exact hL)

/-! ## Lemmas: the shape of a match -/

theorem DecodeRune_take_high (c : Nat) (t : Str) (hc : ¬ c < 0x80) :
    ∀ b ∈ (c :: t).take (DecodeRune (c :: t)).2, 0x80 ≤ b := by
  rcases DecodeRune_inv c t with ⟨h, _⟩ | ⟨_, he⟩ | ⟨b1, t1, rfl, _, hb1, h2, _⟩ |
    ⟨b1, b2, t1, rfl, _, hb1, hb2, h3, _⟩ | ⟨b1, b2, b3, t1, rfl, _, hb1, hb2, hb3, h4, _⟩
  · exact absurd h hc
  · rw [he]; intro b hb; simp at hb; omega
  · rw [h2]; intro b hb; unfold isCont at hb1; simp at hb; omega
  · rw [h3]; intro b hb; unfold isCont at hb1 hb2; simp at hb; omega
  · rw [h4]; intro b hb; unfold isCont at hb1 hb2 hb3; simp at hb; omega

/-- One rune of a class: the bytes it takes are one ASCII byte of the class, or
bytes that are not ASCII. -/
theorem runeEnds_bytes {p : Nat → Bool} {s rest : Str} (h : rest ∈ runeEnds p s) :
    ∃ u, s = u ++ rest ∧ u ≠ [] ∧ ∀ b ∈ u, b < 0x80 → p b = true := by
  obtain ⟨hne, hp, hr⟩ := runeEnds_mem h
  obtain ⟨c, t, rfl⟩ := List.exists_cons_of_ne_nil hne
  have hw := DecodeRune_width_pos (c :: t) (by simp)
  refine ⟨(c :: t).take (DecodeRune (c :: t)).2, by rw [hr, List.take_append_drop], ?_, ?_⟩
  · intro h0
    have := congrArg List.length h0
    simp only [List.length_take, List.length_cons, List.length_nil] at this
    omega
  · intro b hb hlt
    by_cases hc : c < 0x80
    · rw [DecodeRune_ascii c t hc] at hb hp
      simp at hb
      rw [hb]; exact hp
    · have := DecodeRune_take_high c t hc b hb
      omega

theorem starEnds_bytes (p : Nat → Bool) : ∀ (n : Nat) (s rest : Str), rest ∈ starEnds p n s →
    ∃ u, s = u ++ rest ∧ ∀ b ∈ u, b < 0x80 → p b = true := by
  intro n
  induction n with
  | zero => intro s rest h; simp [starEnds] at h; exact ⟨[], by simp [h], by simp⟩
  | succ n ih =>
    intro s rest h
    simp only [starEnds, List.mem_append, List.mem_flatMap, List.mem_singleton] at h
    rcases h with ⟨s1, h1, h2⟩ | h
    · obtain ⟨u1, hs1, _, hb1⟩ := runeEnds_bytes h1
      obtain ⟨u2, hs2, hb2⟩ := ih s1 rest h2
      refine ⟨u1 ++ u2, by rw [hs1, hs2, List.append_assoc], ?_⟩
      intro b hb
      rcases List.mem_append.1 hb with hb | hb
      · exact hb1 b hb
      · exact hb2 b hb
    · exact ⟨[], by simp [h], by simp⟩

theorem urlClass_high {b : Nat} (h : 0x80 ≤ b) : urlClass b = true := by
  simp only [urlClass, perlSpace, Bool.not_eq_true', Bool.or_eq_false_iff, decide_eq_false_iff_not]
  have h1 : '<'.toNat = 60 := rfl
  have h2 : '>'.toNat = 62 := rfl
  have h3 : '"'.toNat = 34 := rfl
  have h4 : '\''.toNat = 39 := rfl
  rw [h1, h2, h3, h4]
  omega

theorem hostClass_lt {r : Nat} (h : hostClass r = true) : r < 0x80 := by
  simp only [hostClass, Bool.or_eq_true, Bool.and_eq_true, decide_eq_true_eq] at h
  have h1 : 'A'.toNat = 65 := rfl
  have h2 : 'Z'.toNat = 90 := rfl
  have h3 : 'a'.toNat = 97 := rfl
  have h4 : 'z'.toNat = 122 := rfl
  have h5 : '0'.toNat = 48 := rfl
  have h6 : '9'.toNat = 57 := rfl
  have h7 : '-'.toNat = 45 := rfl
  have h8 : '.'.toNat = 46 := rfl
  have h9 : '_'.toNat = 95 := rfl
  rw [h1, h2, h3, h4, h5, h6, h7, h8, h9] at h
  omega

/-- The greedy star of the host class takes ASCII bytes of the class only. -/
theorem starEnds_host : ∀ (n : Nat) (s rest : Str), rest ∈ starEnds hostClass n s →
    ∃ u, s = u ++ rest ∧ ∀ b ∈ u, hostClass b = true := by
  intro n
  induction n with
  | zero => intro s rest h; simp [starEnds] at h; exact ⟨[], by simp [h], by simp⟩
  | succ n ih =>
    intro s rest h
    simp only [starEnds, List.mem_append, List.mem_flatMap, List.mem_singleton] at h
    rcases h with ⟨s1, h1, h2⟩ | h
    · obtain ⟨hne, hp, hr⟩ := runeEnds_mem h1
      obtain ⟨c, t, rfl⟩ := List.exists_cons_of_ne_nil hne
      have hc : c < 0x80 := DecodeRune_lt_RuneSelf c t (hostClass_lt hp)
      rw [DecodeRune_ascii c t hc] at hp hr
      simp only [List.drop_succ_cons, List.drop_zero] at hr
      obtain ⟨u2, hs2, hb2⟩ := ih s1 rest h2
      refine ⟨c :: u2, by rw [← hr, hs2]; rfl, ?_⟩
      intro b hb
      rcases List.mem_cons.1 hb with hb | hb
      · rw [hb]; exact hp
      · exact hb2 b hb
    · exact ⟨[], by simp [h], by simp⟩

theorem urlClass_of_bytes {u : Str} (h : ∀ b ∈ u, b < 0x80 → urlClass b = true) :
    ∀ b ∈ u, urlClass b = true := by
  intro b hb
  by_cases hlt : b < 0x80
  · exact h b hb hlt
  · exact urlClass_high (by omega)

/-- A match of `urlRegex`: `http://` or `https://`, then one or more bytes none of
which is white space, an angle bracket or a quote. -/
theorem urlRegex_ends (s rest : Str) (h : rest ∈ urlRegex.ends s) :
    ∃ body, (s = str "http://" ++ body ++ rest ∨ s = str "https://" ++ body ++ rest) ∧
      body ≠ [] ∧ ∀ b ∈ body, urlClass b = true := by
  obtain ⟨s1, hs1, h1⟩ := lits_ends (Re.cat (Re.quest (Re.lit 's'))
    (Re.lits "://" (Re.plus urlClass))) "http".toList (by decide) s rest h
  change rest ∈ ((Re.quest (Re.lit 's')).ends s1).flatMap
    (fun s2 => (Re.lits "://" (Re.plus urlClass)).ends s2) at h1
  rw [List.mem_flatMap] at h1
  obtain ⟨s2, hq, h2⟩ := h1
  obtain ⟨s3, hs3, h3⟩ := lits_ends (Re.plus urlClass) "://".toList (by decide) s2 rest h2
  change rest ∈ (runeEnds urlClass s3).flatMap (fun s4 => starEnds urlClass s4.length s4) at h3
  rw [List.mem_flatMap] at h3
  obtain ⟨s4, hr, hst⟩ := h3
  obtain ⟨u1, hu1, hne, hb1⟩ := runeEnds_bytes hr
  obtain ⟨u2, hu2, hb2⟩ := starEnds_bytes urlClass _ s4 rest hst
  have hbody : ∀ b ∈ u1 ++ u2, urlClass b = true := by
    apply urlClass_of_bytes
    intro b hb
    rcases List.mem_append.1 hb with hb | hb
    · exact hb1 b hb
    · exact hb2 b hb
  refine ⟨u1 ++ u2, ?_, by simp [hne], hbody⟩
  change s2 ∈ (Re.lit 's').ends s1 ++ [s1] at hq
  rw [List.mem_append, List.mem_singleton] at hq
  have e1 : "http".toList.map Char.toNat = str "http" := by decide
  have e2 : "://".toList.map Char.toNat = str "://" := by decide
  rcases hq with hq | hq
  · right
    have := lit_ends (c := 's') (by decide) hq
    rw [hs1, this, hs3, hu1, hu2, e1, e2]
    have e3 : str "https://" = str "http" ++ ('s'.toNat :: str "://") := by decide
    rw [e3]
    simp only [List.append_assoc, List.cons_append]
  · left
    rw [hs1, ← hq, hs3, hu1, hu2, e1, e2]
    have e3 : str "http://" = str "http" ++ str "://" := by decide
    rw [e3]
    simp only [List.append_assoc]

/-- A match of `carbonRe`: bytes of the host class, the literal `carbon.ms`, then
bytes none of which is white space, an angle bracket or a quote. -/
theorem carbonRe_ends_shape (s rest : Str) (h : rest ∈ carbonRe.ends s) :
    ∃ u1 u2, s = u1 ++ str "carbon.ms" ++ u2 ++ rest ∧ (∀ b ∈ u1, hostClass b = true) ∧
      ∀ b ∈ u2, urlClass b = true := by
  change rest ∈ ((Re.star hostClass).ends s).flatMap
    (fun s1 => (Re.lits "carbon.ms" (Re.star urlClass)).ends s1) at h
  rw [List.mem_flatMap] at h
  obtain ⟨s1, h1, h2⟩ := h
  obtain ⟨u1, hu1, hb1⟩ := starEnds_host _ s s1 h1
  obtain ⟨s2, hs2, hk⟩ := lits_ends (Re.star urlClass) "carbon.ms".toList (by decide) s1 rest h2
  obtain ⟨u2, hu2, hb2⟩ := starEnds_bytes urlClass _ s2 rest hk
  refine ⟨u1, u2, ?_, hb1, urlClass_of_bytes hb2⟩
  have hcs : "carbon.ms".toList.map Char.toNat = str "carbon.ms" := by decide
  rw [hu1, hs2, hu2, hcs]
  simp only [List.append_assoc]

/-- The search reports the leftmost match: when the expression cannot match at a
byte that is not ASCII, it matches at no position before the reported one. -/
theorem find_leftmost (re : Re) (hq : ∀ (c : Nat) (t : Str), 0x80 ≤ c → re.ends (c :: t) = []) :
    ∀ (n : Nat) (s m rest : Str), re.find n s = some (m, rest) →
      ∃ pre, s = pre ++ (m ++ rest) ∧ (re.ends (m ++ rest)).head? = some rest ∧
        ∀ a b, pre = a ++ b → b ≠ [] → re.ends (b ++ (m ++ rest)) = [] := by
  intro n
  induction n with
  | zero => intro s m rest h; simp [Re.find] at h
  | succ n ih =>
    intro s m rest h
    simp only [Re.find] at h
    cases hh : (re.ends s).head? with
    | some r =>
      obtain ⟨pre, hs, hr⟩ := find_spec re (n + 1) s m rest (by simp only [Re.find]; exact h)
      rw [hh] at h
      simp only [Option.some.injEq, Prod.mk.injEq] at h
      obtain ⟨hm, rfl⟩ := h
      have hmem : r ∈ re.ends s := List.mem_of_mem_head? hh
      obtain ⟨u, hu⟩ := ends_suffix re s r hmem
      have hmu : m = u := by rw [← hm, hu]; simp
      subst hmu
      refine ⟨[], by simp [hu], by rw [← hu]; exact hh, ?_⟩
      intro a b hab hb
      have : b = [] := by
        cases a <;> simp at hab
        exact hab
      exact absurd this hb
    | none =>
      rw [hh] at h
      have hnil : re.ends s = [] := List.head?_eq_none_iff.1 hh
      cases s with
      | nil => simp at h
      | cons x t =>
        simp only at h
        obtain ⟨pre, hp, hr, hleft⟩ := ih _ m rest h
        have hw := DecodeRune_width_pos (x :: t) (by simp)
        have hwl := DecodeRune_width_le (x :: t)
        have hsplit : x :: t = (x :: t).take (DecodeRune (x :: t)).2 ++ (pre ++ (m ++ rest)) := by
          rw [← hp, List.take_append_drop]
        refine ⟨(x :: t).take (DecodeRune (x :: t)).2 ++ pre, ?_, hr, ?_⟩
        · rw [List.append_assoc]; exact hsplit
        · intro a b hab hb
          by_cases ha0 : a = []
          · subst ha0
            simp only [List.nil_append] at hab
            rw [← hab, List.append_assoc, ← hsplit]
            exact hnil
          · by_cases hal : a.length < (DecodeRune (x :: t)).2
            · -- a position inside the first rune
              have hx : ¬ x < 0x80 := by
                intro hx
                rw [DecodeRune_ascii x t hx] at hal
                simp only at hal
                have : 0 < a.length := List.length_pos.2 ha0
                omega
              have hbl : a.length < ((x :: t).take (DecodeRune (x :: t)).2).length := by
                simp only [List.length_take]; omega
              have htk : (x :: t).take (DecodeRune (x :: t)).2 =
                  a ++ ((x :: t).take (DecodeRune (x :: t)).2).drop a.length := by
                have h1 : ((x :: t).take (DecodeRune (x :: t)).2 ++ pre).take a.length = a := by
                  rw [hab]; simp
                rw [List.take_append_of_le_length (le_of_lt hbl)] at h1
                conv_lhs => rw [← List.take_append_drop a.length
                  ((x :: t).take (DecodeRune (x :: t)).2)]
                rw [h1]
              obtain ⟨c, t1, hct⟩ := List.exists_cons_of_ne_nil
                (show ((x :: t).take (DecodeRune (x :: t)).2).drop a.length ≠ [] by
                  intro h0
                  have := congrArg List.length h0
                  simp only [List.length_drop, List.length_nil] at this
                  omega)
              have hcmem : c ∈ (x :: t).take (DecodeRune (x :: t)).2 := by
                rw [htk, hct]; simp
              have hc := DecodeRune_take_high x t hx c hcmem
              have hb2 : b = c :: t1 ++ pre := by
                have h2 := hab
                rw [htk, hct, List.append_assoc] at h2
                exact (List.append_cancel_left h2).symm
              rw [hb2]
              exact hq c _ hc
            · -- a position after the first rune
              have htl : ((x :: t).take (DecodeRune (x :: t)).2).length = (DecodeRune (x :: t)).2 := by
                simp only [List.length_take]; omega
              have ha : a = (x :: t).take (DecodeRune (x :: t)).2 ++ a.drop (DecodeRune (x :: t)).2 := by
                have h1 : (a ++ b).take (DecodeRune (x :: t)).2 =
                    (x :: t).take (DecodeRune (x :: t)).2 := by
                  rw [← hab, List.take_append_of_le_length (by omega), List.take_of_length_le (by omega)]
                rw [List.take_append_of_le_length (by omega)] at h1
                conv_lhs => rw [← List.take_append_drop (DecodeRune (x :: t)).2 a]
                rw [h1]
              have hpre : pre = a.drop (DecodeRune (x :: t)).2 ++ b := by
                have h2 := hab
                rw [ha, List.append_assoc] at h2
                exact List.append_cancel_left h2
              exact hleft _ b hpre hb

/-- A position in a non-empty string is its start, or lies inside its first rune
(at a byte that is not ASCII), or lies in what follows the first rune. -/
theorem split_first_rune (x : Nat) (t a b : Str) (h : x :: t = a ++ b) :
    a = [] ∨ (∃ c t1, b = c :: t1 ∧ 0x80 ≤ c) ∨
      ∃ a1, (x :: t).drop (DecodeRune (x :: t)).2 = a1 ++ b := by
  have hw := DecodeRune_width_pos (x :: t) (by simp)
  have hwl := DecodeRune_width_le (x :: t)
  by_cases ha0 : a = []
  · exact Or.inl ha0
  · right
    by_cases hal : a.length < (DecodeRune (x :: t)).2
    · left
      have hx : ¬ x < 0x80 := by
        intro hx
        rw [DecodeRune_ascii x t hx] at hal
        simp only at hal
        have : 0 < a.length := List.length_pos.2 ha0
        omega
      have hbne : b ≠ [] := by
        intro h0
        rw [h0, List.append_nil] at h
        rw [← h] at hal
        omega
      obtain ⟨c, t1, hct⟩ := List.exists_cons_of_ne_nil hbne
      refine ⟨c, t1, hct, ?_⟩
      apply DecodeRune_take_high x t hx c
      generalize (DecodeRune (x :: t)).2 = w at hal hw hwl ⊢
      rw [h, hct, List.take_append_eq_append_take, List.take_of_length_le (le_of_lt hal)]
      have : w - a.length = w - a.length - 1 + 1 := by omega
      rw [this, List.take_succ_cons]
      simp
    · right
      refine ⟨a.drop (DecodeRune (x :: t)).2, ?_⟩
      generalize (DecodeRune (x :: t)).2 = w at hal hw hwl ⊢
      rw [h, List.drop_append_of_le_length (by omega)]

theorem find_none (re : Re) (hq : ∀ (c : Nat) (t : Str), 0x80 ≤ c → re.ends (c :: t) = []) :
    ∀ (n : Nat) (s : Str), s.length + 1 ≤ n → re.find n s = none →
      ∀ a b, s = a ++ b → re.ends b = [] := by
  intro n
  induction n with
  | zero => intro s hn; omega
  | succ n ih =>
    intro s hn h a b hab
    simp only [Re.find] at h
    cases hh : (re.ends s).head? with
    | some r => rw [hh] at h; simp at h
    | none =>
      rw [hh] at h
      have hnil : re.ends s = [] := List.head?_eq_none_iff.1 hh
      cases s with
      | nil =>
        have : b = [] := by
          cases a <;> simp at hab
          exact hab
        rw [this]; exact hnil
      | cons x t =>
        simp only at h
        have hw := DecodeRune_width_pos (x :: t) (by simp)
        rcases split_first_rune x t a b hab with ha | ⟨c, t1, hb, hc⟩ | ⟨a1, ha1⟩
        · subst ha
          rw [← List.nil_append b, ← hab]; exact hnil
        · rw [hb]; exact hq c t1 hc
        · exact ih _ (by simp only [List.length_drop, List.length_cons] at hn ⊢; omega) h a1 b ha1

theorem urlRegex_high (c : Nat) (t : Str) (hc : 0x80 ≤ c) : urlRegex.ends (c :: t) = [] := by
  rw [List.eq_nil_iff_forall_not_mem]
  intro rest h
  obtain ⟨body, hs | hs, _⟩ := urlRegex_ends _ rest h
  · have e : str "http://" = 104 :: [116, 116, 112, 58, 47, 47] := by decide
    rw [e] at hs
    simp only [List.cons_append, List.cons.injEq] at hs
    omega
  · have e : str "https://" = 104 :: [116, 116, 112, 115, 58, 47, 47] := by decide
    rw [e] at hs
    simp only [List.cons_append, List.cons.injEq] at hs
    omega

theorem carbonRe_high (c : Nat) (t : Str) (hc : 0x80 ≤ c) : carbonRe.ends (c :: t) = [] := by
  rw [List.eq_nil_iff_forall_not_mem]
  intro rest h
  obtain ⟨u1, u2, hs, hu1, _⟩ := carbonRe_ends_shape _ rest h
  cases u1 with
  | nil =>
    rw [carbon_bytes] at hs
    simp only [List.nil_append, List.cons_append, List.cons.injEq] at hs
    omega
  | cons y u1 =>
    simp only [List.cons_append, List.cons.injEq] at hs
    have := hostClass_lt (hu1 y (by simp))
    omega

theorem urlRegex_nonempty (s : Str) : s ∉ urlRegex.ends s := by
  intro h
  obtain ⟨body, hs | hs, hne, _⟩ := urlRegex_ends s s h
  · have := congrArg List.length hs
    simp only [List.length_append] at this
    have : body.length = 0 := by omega
    exact hne (List.eq_nil_of_length_eq_zero this)
  · have := congrArg List.length hs
    simp only [List.length_append] at this
    have : body.length = 0 := by omega
    exact hne (List.eq_nil_of_length_eq_zero this)

theorem allMatches_scan (re : Re) (hq : ∀ (c : Nat) (t : Str), 0x80 ≤ c → re.ends (c :: t) = [])
    (hne : ∀ s, s ∉ re.ends s) : ∀ (n : Nat) (s : Str) (flag : Bool), s.length + 1 ≤ n →
      Scan re (allMatches re n s flag) s := by
  intro n
  induction n with
  | zero => intro s flag hn; omega
  | succ n ih =>
    intro s flag hn
    simp only [allMatches]
    cases hf : re.find (s.length + 1) s with
    | none =>
      simp only [Scan]
      exact find_none re hq _ s (le_refl _) hf
    | some mr =>
      obtain ⟨m, rest⟩ := mr
      obtain ⟨pre, hs, hhead, hleft⟩ := find_leftmost re hq _ s m rest hf
      have hlen := congrArg List.length hs
      simp only [List.length_append] at hlen
      have hneq : rest.length ≠ s.length := by
        intro heq
        have hm : m = [] := List.eq_nil_of_length_eq_zero (by omega)
        rw [hm, List.nil_append] at hhead
        exact hne rest (List.mem_of_mem_head? hhead)
      simp only
      rw [if_neg hneq]
      exact ⟨pre, rest, hs, hhead, hleft, ih rest true (by omega)⟩

theorem Scan_mem (re : Re) : ∀ (us : List Str) (s : Str), Scan re us s → ∀ u ∈ us,
    ∃ rest, rest ∈ re.ends (u ++ rest) := by
  intro us
  induction us with
  | nil => intro s _ u hu; simp at hu
  | cons v us ih =>
    intro s hs u hu
    obtain ⟨pre, rest, _, hhead, _, hrest⟩ := hs
    rcases List.mem_cons.1 hu with h | h
    · rw [h]; exact ⟨rest, List.mem_of_mem_head? hhead⟩
    · exact ih rest hrest u h

theorem FindAllString_scan (s : Str) : Scan urlRegex (FindAllString urlRegex s) s :=
  allMatches_scan urlRegex urlRegex_high urlRegex_nonempty _ s false (le_refl _)

theorem FindAllString_shape (s u : Str) (h : u ∈ FindAllString urlRegex s) :
    ∃ body, (u = str "http://" ++ body ∨ u = str "https://" ++ body) ∧ body ≠ [] ∧
      ∀ b ∈ body, urlClass b = true := by
  obtain ⟨rest, hr⟩ := Scan_mem urlRegex _ s (FindAllString_scan s) u h
  obtain ⟨body, hs, hne, hb⟩ := urlRegex_ends _ rest hr
  refine ⟨body, ?_, hne, hb⟩
  rcases hs with hs | hs
  · exact Or.inl (List.append_cancel_right hs)
  · exact Or.inr (List.append_cancel_right hs)

/-- What `FindStringSubmatch` reports for `carbonRe`: nothing when the expression
matches nowhere, and otherwise the preferred match at the leftmost position. -/
theorem FindStringSubmatch_carbonRe (L : Str) :
    (FindStringSubmatch carbonRe L = [] ∧ ∀ a b, L = a ++ b → carbonRe.ends b = []) ∨
      ∃ m pre rest, FindStringSubmatch carbonRe L = [m, m] ∧ L = pre ++ (m ++ rest) ∧
        (carbonRe.ends (m ++ rest)).head? = some rest ∧
        (∀ a b, pre = a ++ b → b ≠ [] → carbonRe.ends (b ++ (m ++ rest)) = []) ∧
        ∃ u1 u2, m = u1 ++ str "carbon.ms" ++ u2 ∧ (∀ b ∈ u1, hostClass b = true) ∧
          ∀ b ∈ u2, urlClass b = true := by
  unfold FindStringSubmatch
  cases hf : carbonRe.find (L.length + 1) L with
  | none => exact Or.inl ⟨rfl, find_none carbonRe carbonRe_high _ L (le_refl _) hf⟩
  | some mr =>
    obtain ⟨m, rest⟩ := mr
    obtain ⟨pre, hs, hhead, hleft⟩ := find_leftmost carbonRe carbonRe_high _ L m rest hf
    obtain ⟨u1, u2, hu, h1, h2⟩ := carbonRe_ends_shape _ rest (List.mem_of_mem_head? hhead)
    exact Or.inr ⟨m, pre, rest, rfl, hs, hhead, hleft, u1, u2, List.append_cancel_right hu, h1, h2⟩

/-! ## Lemmas: the loops do not run out of fuel, and the fast paths agree -/

theorem starEnds_fuel (p : Nat → Bool) : ∀ (n : Nat) (s : Str), s.length ≤ n →
    starEnds p n s = starEnds p s.length s := by
  intro n
  induction n using Nat.strong_induction_on with
  | _ n ih =>
    intro s hs
    cases s with
    | nil => cases n <;> simp [starEnds, runeEnds]
    | cons c t =>
      cases n with
      | zero => simp at hs
      | succ n =>
        have hw := DecodeRune_width_pos (c :: t) (by simp)
        simp only [starEnds, List.length_cons, runeEnds]
        split_ifs
        · simp only [List.flatMap_cons, List.flatMap_nil, List.append_nil]
          have hl : ((c :: t).drop (DecodeRune (c :: t)).2).length ≤ t.length := by
            simp only [List.length_drop, List.length_cons]; omega
          simp only [List.length_cons] at hs
          rw [ih n (Nat.lt_succ_self n) _ (by omega)]
          by_cases hlt : t.length < n + 1
          · rw [ih t.length hlt _ hl]
          · omega
        · rfl

/-- The greedy star without fuel: one more rune of the class first, then the
stop. -/
theorem starEnds_unfold (p : Nat → Bool) (s : Str) :
    starEnds p s.length s =
      (runeEnds p s).flatMap (fun s1 => starEnds p s1.length s1) ++ [s] := by
  cases s with
  | nil => simp [starEnds, runeEnds]
  | cons c t =>
    have hw := DecodeRune_width_pos (c :: t) (by simp)
    simp only [starEnds, List.length_cons, runeEnds]
    split_ifs
    · simp only [List.flatMap_cons, List.flatMap_nil, List.append_nil]
      rw [starEnds_fuel p t.length _ (by simp only [List.length_drop, List.length_cons]; omega)]
    · rfl

theorem first_table {s0 sz lo hi : Nat} (h : first s0 = some (sz, lo, hi)) :
    (0xC2 ≤ s0 ∧ s0 ≤ 0xDF ∧ sz = 2 ∧ lo = 0x80 ∧ hi = 0xBF) ∨
    (s0 = 0xE0 ∧ sz = 3 ∧ lo = 0xA0 ∧ hi = 0xBF) ∨
    (0xE1 ≤ s0 ∧ s0 ≤ 0xEC ∧ sz = 3 ∧ lo = 0x80 ∧ hi = 0xBF) ∨
    (s0 = 0xED ∧ sz = 3 ∧ lo = 0x80 ∧ hi = 0x9F) ∨
    (0xEE ≤ s0 ∧ s0 ≤ 0xEF ∧ sz = 3 ∧ lo = 0x80 ∧ hi = 0xBF) ∨
    (s0 = 0xF0 ∧ sz = 4 ∧ lo = 0x90 ∧ hi = 0xBF) ∨
    (0xF1 ≤ s0 ∧ s0 ≤ 0xF3 ∧ sz = 4 ∧ lo = 0x80 ∧ hi = 0xBF) ∨
    (s0 = 0xF4 ∧ sz = 4 ∧ lo = 0x80 ∧ hi = 0x8F) := by
  unfold first at h
  split_ifs at h with h1 h2 h3 h4 h5 h6 h7 h8
  · simp only [Option.some.injEq, Prod.mk.injEq] at h
    obtain ⟨rfl, rfl, rfl⟩ := h
    exact Or.inl ⟨h1.1, h1.2, rfl, rfl, rfl⟩
  · simp only [Option.some.injEq, Prod.mk.injEq] at h
    obtain ⟨rfl, rfl, rfl⟩ := h
    exact Or.inr (Or.inl ⟨h2, rfl, rfl, rfl⟩)
  · simp only [Option.some.injEq, Prod.mk.injEq] at h
    obtain ⟨rfl, rfl, rfl⟩ := h
    exact Or.inr (Or.inr (Or.inl ⟨h3.1, h3.2, rfl, rfl, rfl⟩))
  · simp only [Option.some.injEq, Prod.mk.injEq] at h
    obtain ⟨rfl, rfl, rfl⟩ := h
    exact Or.inr (Or.inr (Or.inr (Or.inl ⟨h4, rfl, rfl, rfl⟩)))
  · simp only [Option.some.injEq, Prod.mk.injEq] at h
    obtain ⟨rfl, rfl, rfl⟩ := h
    exact Or.inr (Or.inr (Or.inr (Or.inr (Or.inl ⟨h5.1, h5.2, rfl, rfl, rfl⟩))))
  · simp only [Option.some.injEq, Prod.mk.injEq] at h
    obtain ⟨rfl, rfl, rfl⟩ := h
    exact Or.inr (Or.inr (Or.inr (Or.inr (Or.inr (Or.inl ⟨h6, rfl, rfl, rfl⟩)))))
  · simp only [Option.some.injEq, Prod.mk.injEq] at h
    obtain ⟨rfl, rfl, rfl⟩ := h
    exact Or.inr (Or.inr (Or.inr (Or.inr (Or.inr (Or.inr (Or.inl ⟨h7.1, h7.2, rfl, rfl, rfl⟩))))))
  · simp only [Option.some.injEq, Prod.mk.injEq] at h
    obtain ⟨rfl, rfl, rfl⟩ := h
    exact Or.inr (Or.inr (Or.inr (Or.inr (Or.inr (Or.inr (Or.inr ⟨h8, rfl, rfl, rfl⟩))))))

theorem EncodeRune_two (c b : Nat) (hc : 0xC2 ≤ c ∧ c ≤ 0xDF) (hb : 0x80 ≤ b ∧ b ≤ 0xBF) :
    EncodeRune (c % 32 * 64 + b % 64) = [c, b] := by
  unfold EncodeRune
  rw [if_neg (by omega), if_pos (by omega)]
  simp only [List.cons.injEq, and_true]
  omega

theorem EncodeRune_three (c b1 b2 : Nat) (hc : 0xE0 ≤ c ∧ c ≤ 0xEF) (hb1 : 0x80 ≤ b1 ∧ b1 ≤ 0xBF)
    (hb2 : 0x80 ≤ b2 ∧ b2 ≤ 0xBF) (hlo : c = 0xE0 → 0xA0 ≤ b1) (hhi : c = 0xED → b1 ≤ 0x9F) :
    EncodeRune (c % 16 * 4096 + b1 % 64 * 64 + b2 % 64) = [c, b1, b2] := by
  unfold EncodeRune
  rw [if_neg (by omega), if_neg (by omega), if_neg (by simp only [MaxRune]; omega),
    if_pos (by omega)]
  simp only [List.cons.injEq, and_true]
  omega

theorem EncodeRune_four (c b1 b2 b3 : Nat) (hc : 0xF0 ≤ c ∧ c ≤ 0xF4)
    (hb1 : 0x80 ≤ b1 ∧ b1 ≤ 0xBF) (hb2 : 0x80 ≤ b2 ∧ b2 ≤ 0xBF) (hb3 : 0x80 ≤ b3 ∧ b3 ≤ 0xBF)
    (hlo : c = 0xF0 → 0x90 ≤ b1) (hhi : c = 0xF4 → b1 ≤ 0x8F) :
    EncodeRune (c % 8 * 262144 + b1 % 64 * 4096 + b2 % 64 * 64 + b3 % 64) = [c, b1, b2, b3] := by
  unfold EncodeRune
  rw [if_neg (by omega), if_neg (by omega), if_neg (by simp only [MaxRune]; omega),
    if_neg (by omega)]
  simp only [List.cons.injEq, and_true]
  omega

theorem DecodeRune_two (c b1 : Nat) (h : (DecodeRune [c, b1]).2 = 2) :
    (0xC2 ≤ c ∧ c ≤ 0xDF) ∧ (0x80 ≤ b1 ∧ b1 ≤ 0xBF) ∧
      DecodeRune [c, b1] = (c % 32 * 64 + b1 % 64, 2) := by
  by_cases hc : c < RuneSelf
  · simp [DecodeRune, hc] at h
  · cases hf : first c with
    | none => simp [DecodeRune, hc, hf] at h
    | some v =>
      obtain ⟨sz, lo, hi⟩ := v
      have ht := first_table hf
      simp only [DecodeRune, hc, hf, if_false, List.length_cons, List.length_nil] at h ⊢
      split_ifs at h ⊢ <;> simp only [] at h <;> try omega
      exact ⟨by omega, by omega, rfl⟩

theorem DecodeRune_three (c b1 b2 : Nat) (h : (DecodeRune [c, b1, b2]).2 = 3) :
    (0xE0 ≤ c ∧ c ≤ 0xEF) ∧ (0x80 ≤ b1 ∧ b1 ≤ 0xBF) ∧ (0x80 ≤ b2 ∧ b2 ≤ 0xBF) ∧
      (c = 0xE0 → 0xA0 ≤ b1) ∧ (c = 0xED → b1 ≤ 0x9F) ∧
      DecodeRune [c, b1, b2] = (c % 16 * 4096 + b1 % 64 * 64 + b2 % 64, 3) := by
  by_cases hc : c < RuneSelf
  · simp [DecodeRune, hc] at h
  · cases hf : first c with
    | none => simp [DecodeRune, hc, hf] at h
    | some v =>
      obtain ⟨sz, lo, hi⟩ := v
      have ht := first_table hf
      simp only [DecodeRune, hc, hf, if_false, List.length_cons, List.length_nil] at h ⊢
      split_ifs at h ⊢ <;> simp only [] at h <;> try omega
      exact ⟨by omega, by omega, by omega, by omega, by omega, rfl⟩

theorem DecodeRune_four (c b1 b2 b3 : Nat) (h : (DecodeRune [c, b1, b2, b3]).2 = 4) :
    (0xF0 ≤ c ∧ c ≤ 0xF4) ∧ (0x80 ≤ b1 ∧ b1 ≤ 0xBF) ∧ (0x80 ≤ b2 ∧ b2 ≤ 0xBF) ∧
      (0x80 ≤ b3 ∧ b3 ≤ 0xBF) ∧ (c = 0xF0 → 0x90 ≤ b1) ∧ (c = 0xF4 → b1 ≤ 0x8F) ∧
      DecodeRune [c, b1, b2, b3] =
        (c % 8 * 262144 + b1 % 64 * 4096 + b2 % 64 * 64 + b3 % 64, 4) := by
  by_cases hc : c < RuneSelf
  · simp [DecodeRune, hc] at h
  · cases hf : first c with
    | none => simp [DecodeRune, hc, hf] at h
    | some v =>
      obtain ⟨sz, lo, hi⟩ := v
      have ht := first_table hf
      simp only [DecodeRune, hc, hf, if_false, List.length_cons, List.length_nil] at h ⊢
      split_ifs at h ⊢ <;> simp only [] at h <;> try omega
      exact ⟨by omega, by omega, by omega, by omega, by omega, by omega, rfl⟩

/-- A valid encoding is what `EncodeRune` makes of the rune decoded from it: the
bytes `strings.Map` copies for an unchanged rune are the ones the model writes. -/
theorem EncodeRune_DecodeRune (c : Nat) (t : Str)
    (h : (DecodeRune (c :: t)).2 ≠ 1 ∨ c < 0x80) :
    EncodeRune (DecodeRune (c :: t)).1 = (c :: t).take (DecodeRune (c :: t)).2 := by
  by_cases hc : c < 0x80
  · rw [DecodeRune_ascii c t hc]
    simp [EncodeRune, hc]
  · have hw : (DecodeRune (c :: t)).2 ≠ 1 := by
      rcases h with h | h
      · exact h
      · exact absurd h hc
    rcases DecodeRune_inv c t with ⟨h0, _⟩ | ⟨_, he⟩ | ⟨b1, t1, rfl, _, _, h2, hall⟩ |
      ⟨b1, b2, t1, rfl, _, _, _, h3, hall⟩ | ⟨b1, b2, b3, t1, rfl, _, _, _, _, h4, hall⟩
    · exact absurd h0 hc
    · rw [he] at hw; exact absurd rfl hw
    · rw [← hall []] at h2 ⊢
      obtain ⟨k1, k2, k3⟩ := DecodeRune_two c b1 h2
      rw [k3]
      exact EncodeRune_two c b1 k1 k2
    · rw [← hall []] at h3 ⊢
      obtain ⟨k1, k2, k3, k4, k5, k6⟩ := DecodeRune_three c b1 b2 h3
      rw [k6]
      exact EncodeRune_three c b1 b2 k1 k2 k3 k4 k5
    · rw [← hall []] at h4 ⊢
      obtain ⟨k1, k2, k3, k4, k5, k6, k7⟩ := DecodeRune_four c b1 b2 b3 h4
      rw [k7]
      exact EncodeRune_four c b1 b2 b3 k1 k2 k3 k4 k5 k6

theorem Map_ascii (f : Nat → Nat) (s : Str) (h : ∀ c ∈ s, c < 0x80) (hf : ∀ c ∈ s, f c < 0x80) :
    Map f s = s.map f := by
  have h1 := Map_ascii_list f [] s h
  rw [List.append_nil, Map_nil, List.append_nil] at h1
  rw [h1]
  clear h1 h
  induction s with
  | nil => rfl
  | cons c s ih =>
    rw [List.flatMap_cons, List.map_cons, ih (fun x hx => hf x (by simp [hx]))]
    have : EncodeRune (f c) = [f c] := by
      unfold EncodeRune
      rw [if_pos (hf c (by simp))]
    rw [this]
    rfl

/-- The byte-wise branch of `strings.ToUpper` for an ASCII string gives what
`strings.Map` with `unicode.ToUpper` gives. -/
theorem ToUpper_eq_Map (tbl : List CaseRange) (s : Str) :
    ToUpper tbl s = Map (unicodeToUpper tbl) s := by
  unfold ToUpper
  by_cases hall : (s.all fun c => decide (c < RuneSelf)) = true
  · rw [if_pos hall]
    have hasc : ∀ c ∈ s, c < 0x80 := by
      intro c hc
      have := List.all_eq_true.1 hall c hc
      simpa [RuneSelf] using this
    have hmap : Map (unicodeToUpper tbl) s = s.map (unicodeToUpper tbl) := by
      apply Map_ascii _ _ hasc
      intro c hc
      have := hasc c hc
      unfold unicodeToUpper
      rw [if_pos (by omega)]
      split_ifs <;> omega
    rw [hmap]
    have hcongr : s.map (unicodeToUpper tbl) =
        s.map (fun c => if 0x61 ≤ c ∧ c ≤ 0x7A then c - 0x20 else c) := by
      apply List.map_congr_left
      intro c hc
      have := hasc c hc
      unfold unicodeToUpper
      rw [if_pos (by omega)]
    rw [hcongr]
    split_ifs with hany
    · rfl
    · have hno : ∀ c ∈ s, ¬ (0x61 ≤ c ∧ c ≤ 0x7A) := by
        intro c hc hlow
        apply hany
        rw [List.any_eq_true]
        exact ⟨c, hc, by simp [hlow.1, hlow.2]⟩
      conv_lhs => rw [← List.map_id s]
      apply List.map_congr_left
      intro c hc
      rw [if_neg (hno c hc)]
      rfl
  · rw [if_neg hall]

/-- The byte-wise branch of `strings.ToLower` for an ASCII string gives what
`strings.Map` with `unicode.ToLower` gives. -/
theorem ToLower_eq_Map (tbl : List CaseRange) (s : Str) :
    ToLower tbl s = Map (unicodeToLower tbl) s := by
  unfold ToLower
  by_cases hall : (s.all fun c => decide (c < RuneSelf)) = true
  · rw [if_pos hall]
    have hasc : ∀ c ∈ s, c < 0x80 := by
      intro c hc
      have := List.all_eq_true.1 hall c hc
      simpa [RuneSelf] using this
    have hmap : Map (unicodeToLower tbl) s = s.map (unicodeToLower tbl) := by
      apply Map_ascii _ _ hasc
      intro c hc
      have := hasc c hc
      unfold unicodeToLower
      rw [if_pos (by omega)]
      split_ifs <;> omega
    rw [hmap]
    have hcongr : s.map (unicodeToLower tbl) =
        s.map (fun c => if 0x41 ≤ c ∧ c ≤ 0x5A then c + 0x20 else c) := by
      apply List.map_congr_left
      intro c hc
      have := hasc c hc
      unfold unicodeToLower
      rw [if_pos (by omega)]
    rw [hcongr]
    split_ifs with hany
    · rfl
    · have hno : ∀ c ∈ s, ¬ (0x41 ≤ c ∧ c ≤ 0x5A) := by
        intro c hc hlow
        apply hany
        rw [List.any_eq_true]
        exact ⟨c, hc, by simp [hlow.1, hlow.2]⟩
      conv_lhs => rw [← List.map_id s]
      apply List.map_congr_left
      intro c hc
      rw [if_neg (hno c hc)]
      rfl
  · rw [if_neg hall]

/-! ## Lemmas: the steps of clean only shorten the line -/

theorem TrimLeftFunc_suffix (f : Nat → Bool) : ∀ (n : Nat) (s : Str), s.length ≤ n →
    ∃ a, s = a ++ TrimLeftFunc s f := by
  intro n
  induction n with
  | zero =>
    intro s hs
    have : s = [] := List.eq_nil_of_length_eq_zero (by omega)
    subst this
    exact ⟨[], rfl⟩
  | succ n ih =>
    intro s hs
    cases s with
    | nil => exact ⟨[], rfl⟩
    | cons c t =>
      have hw := DecodeRune_width_pos (c :: t) (by simp)
      rw [TrimLeftFunc_cons]
      split_ifs
      · obtain ⟨a, ha⟩ := ih ((c :: t).drop (DecodeRune (c :: t)).2)
          (by simp only [List.length_drop, List.length_cons] at hs ⊢; omega)
        refine ⟨(c :: t).take (DecodeRune (c :: t)).2 ++ a, ?_⟩
        rw [List.append_assoc, ← ha, List.take_append_drop]
      · exact ⟨[], rfl⟩

/-- The result of `TrimSpace` is a piece of its argument. -/
theorem TrimSpace_piece (z : Str) : ∃ a b, z = a ++ TrimSpace z ++ b := by
  obtain ⟨a0, ha0⟩ : ∃ a0, z = a0 ++ z.dropWhile asciiSpace :=
    ⟨z.takeWhile asciiSpace, (List.takeWhile_append_dropWhile _ _).symm⟩
  unfold TrimSpace
  split
  · rename_i h
    rw [h] at ha0
    exact ⟨a0, [], by simpa using ha0⟩
  · rename_i c t h
    rw [h] at ha0
    split_ifs
    · unfold TrimFunc
      obtain ⟨a1, ha1⟩ := TrimLeftFunc_suffix IsSpace _ (c :: t) (le_refl _)
      obtain ⟨b1, hb1, _⟩ := TrimRightFunc_spec (TrimLeftFunc (c :: t) IsSpace)
      refine ⟨a0 ++ a1, b1, ?_⟩
      rw [List.append_assoc, List.append_assoc, ← hb1, ← ha1]
      exact ha0
    · obtain ⟨b0, hb0⟩ := List.rdropWhile_prefix asciiSpace (c :: t)
      split
      · rename_i hl
        exact ⟨z, [], by simp⟩
      · split_ifs
        · obtain ⟨b1, hb1, _⟩ := TrimRightFunc_spec ((c :: t).rdropWhile asciiSpace)
          refine ⟨a0, b1 ++ b0, ?_⟩
          rw [List.append_assoc, ← List.append_assoc _ b1 b0, ← hb1, hb0]
          exact ha0
        · refine ⟨a0, b0, ?_⟩
          rw [List.append_assoc, hb0]
          exact ha0

theorem TrimSpace_length_le (z : Str) : (TrimSpace z).length ≤ z.length := by
  obtain ⟨a, b, h⟩ := TrimSpace_piece z
  have := congrArg List.length h
  simp only [List.length_append] at this
  omega

theorem TrimSpace_eq_of_length (z : Str) (h : z.length ≤ (TrimSpace z).length) :
    TrimSpace z = z := by
  obtain ⟨a, b, hab⟩ := TrimSpace_piece z
  have hl := congrArg List.length hab
  simp only [List.length_append] at hl
  have ha : a = [] := List.eq_nil_of_length_eq_zero (by omega)
  have hb : b = [] := List.eq_nil_of_length_eq_zero (by omega)
  rw [ha, hb] at hab
  simpa using hab.symm

theorem scannerPrefixes_length : ∀ p ∈ scannerPrefixes, 1 ≤ p.length := by decide

theorem stripped_length_le (tbl : List CaseRange) (u : Str) : ∀ (ps : List Str),
    (stripped tbl u ps).length ≤ u.length := by
  intro ps
  induction ps with
  | nil => exact le_refl _
  | cons p ps ih =>
    simp only [stripped]
    split_ifs
    · have := TrimSpace_length_le (u.drop p.length)
      simp only [List.length_drop] at this
      omega
    · exact ih

theorem stripped_length_lt (tbl : List CaseRange) (u : Str) : ∀ (ps : List Str),
    (∀ p ∈ ps, (∀ b ∈ p, b < 0x80) ∧ 1 ≤ p.length) →
    (∃ p ∈ ps, HasPrefix (ToUpper tbl u) p = true) → (stripped tbl u ps).length < u.length := by
  intro ps
  induction ps with
  | nil => intro _ ⟨p, hp, _⟩; simp at hp
  | cons p ps ih =>
    intro hps hex
    simp only [stripped]
    split_ifs with h
    · have h1 := TrimSpace_length_le (u.drop p.length)
      have h2 := ToUpper_ascii_prefix_length tbl u p (hps p (by simp)).1 h
      have h3 := (hps p (by simp)).2
      simp only [List.length_drop] at h1
      omega
    · apply ih (fun q hq => hps q (by simp [hq]))
      obtain ⟨q, hq, hqp⟩ := hex
      rcases List.mem_cons.1 hq with rfl | hq
      · exact absurd hqp h
      · exact ⟨q, hq, hqp⟩

theorem unmarked_length_le (y : Str) : (unmarked y).length ≤ (TrimSpace y).length := by
  unfold unmarked
  split_ifs
  · simp only [List.length_drop]; omega
  · exact le_refl _

theorem TrimRight_length_le (q cutset : Str) : (TrimRight q cutset).length ≤ q.length := by
  unfold TrimRight
  exact (List.rdropWhile_prefix _ q).length_le

/-- A line that `clean` leaves unchanged does not begin with white space, with a
byte-order mark or (upper-cased) with a scanner prefix. -/
theorem clean_fix_conv (tbl : List CaseRange) (y : Str) (h : clean tbl y = some y) :
    IsSpace (DecodeRune y).1 = false ∧ HasPrefix y bom = false ∧
      ∀ p ∈ scannerPrefixes, HasPrefix (ToUpper tbl y) p = false := by
  rw [clean_eq] at h
  simp only [Option.some.injEq] at h
  have h1 := TrimRight_length_le (stripped tbl (unmarked y) scannerPrefixes) (str "\r\n\t ")
  have h2 := stripped_length_le tbl (unmarked y) scannerPrefixes
  have h3 := unmarked_length_le y
  have h4 := TrimSpace_length_le y
  rw [h] at h1
  have hT : TrimSpace y = y := TrimSpace_eq_of_length y (by omega)
  have hb : HasPrefix y bom = false := by
    by_contra hcon
    have hp : HasPrefix (TrimSpace y) bom = true := by rw [hT]; simpa using hcon
    have hl := HasPrefix_length hp
    rw [bom_length] at hl
    have : (unmarked y).length = (TrimSpace y).length - 3 := by
      unfold unmarked
      rw [if_pos hp, List.length_drop]
    omega
  have hu : unmarked y = y := by
    unfold unmarked
    rw [hT, if_neg (by rw [hb]; simp)]
  refine ⟨by rw [← hT]; exact TrimSpace_noLead y, hb, ?_⟩
  intro p hp
  by_contra hcon
  have := stripped_length_lt tbl (unmarked y) scannerPrefixes
    (fun q hq => ⟨scannerPrefixes_ascii q hq, scannerPrefixes_length q hq⟩)
    ⟨p, hp, by rw [hu]; simpa using hcon⟩
  rw [hu] at this
  rw [hu] at h1
  omega

/-! ## The claims -/

/-- C9. `clean` has no failure mode: whenever the upper-cased line starts with one
of the scanner prefixes the line is at least as long as the prefix, also when
upper-casing changes the length in bytes, so that every slice expression of
`clean` is in range and `clean` returns a string for every input. -/
theorem clean_never_panics (tbl : List CaseRange) (s : Str) :
    (∀ (t p : Str), p ∈ scannerPrefixes → HasPrefix (ToUpper tbl t) p = true →
        p.length ≤ t.length ∧ ∃ r, sliceFrom t p.length = some r) ∧
      ∃ r, clean tbl s = some r := by
  refine ⟨?_, _, clean_eq tbl s⟩
  intro t p hp h
  have hl := ToUpper_ascii_prefix_length tbl t p (scannerPrefixes_ascii p hp) h
  exact ⟨hl, t.drop p.length, by simp [sliceFrom, hl]⟩

/-- C1, counterexample. Normalizing `scan: CODE:foo` gives `CODE:foo`, and
normalizing that gives `foo`: `clean` is not idempotent. -/
theorem clean_not_idempotent :
    ¬ ((clean caseRangesLatin (str "scan: CODE:foo")).bind (clean caseRangesLatin) =
        clean caseRangesLatin (str "scan: CODE:foo")) := by
  decide

/-- C1, amended. Normalizing the normalized line `clean s` again leaves it unchanged
exactly when it does not itself begin with white space, with a byte-order mark
or (upper-cased) with one of the scanner prefixes. -/
theorem clean_idempotent_iff (tbl : List CaseRange) (s y : Str) (hy : clean tbl s = some y) :
    (clean tbl s).bind (clean tbl) = clean tbl s ↔
      (IsSpace (DecodeRune y).1 = false ∧ HasPrefix y bom = false ∧
        ∀ p ∈ scannerPrefixes, HasPrefix (ToUpper tbl y) p = false) := by
  rw [hy, Option.some_bind]
  constructor
  · exact clean_fix_conv tbl y
  · rintro ⟨hspace, hbom, hpre⟩
    exact clean_fix tbl y hspace (clean_noTrail tbl s y hy).1 hbom hpre

/-- C1, witness: the line `URL:  https://carbon.ms/x`, whose normalized form
`https://carbon.ms/x` is left unchanged. -/
theorem clean_idempotent_iff_witness :
    clean caseRangesLatin (str "URL:  https://carbon.ms/x") = some (str "https://carbon.ms/x") ∧
      (clean caseRangesLatin (str "URL:  https://carbon.ms/x")).bind (clean caseRangesLatin) =
        clean caseRangesLatin (str "URL:  https://carbon.ms/x") :=
  ⟨by decide,
    (clean_idempotent_iff caseRangesLatin (str "URL:  https://carbon.ms/x")
      (str "https://carbon.ms/x") (by decide)).2 ⟨by decide, by decide, by decide⟩⟩

/-- C3, the failing input. The line `ſcan:x` (bytes C5 BF 63 61 6E 3A 78) upper-cases
to `SCAN:X`, so the prefix `SCAN:` matches; `clean` then cuts five bytes from the
original line, whose `ſ` takes two, and returns `:x` instead of `x`.  The three
examples of the claim, written in ASCII, come out as the claim says. -/
theorem clean_long_s :
    str "\u017Fcan:x" = [0xC5, 0xBF, 0x63, 0x61, 0x6E, 0x3A, 0x78] ∧
      ToUpper caseRangesLatin (str "\u017Fcan:x") = str "SCAN:X" ∧
      clean caseRangesLatin (str "\u017Fcan:x") = some (str ":x") ∧
      clean caseRangesLatin (str "URL:  https://carbon.ms/x") = some (str "https://carbon.ms/x") ∧
      clean caseRangesLatin (str "code:foo") = some (str "foo") ∧
      clean caseRangesLatin (str "scan: CODE:foo") = some (str "CODE:foo") := by
  decide

/-- C4. When the trimmed line is a byte-order mark followed by `r`, `clean`
returns what its remaining steps (the removal of a scanner prefix, then the trim
at the end) make of `r`. -/
theorem clean_bom (tbl : List CaseRange) (s r : Str) (h : TrimSpace s = bom ++ r) :
    clean tbl s =
      (stripScannerPrefix tbl r scannerPrefixes).map (fun l => TrimRight l (str "\r\n\t ")) := by
  have hb : HasPrefix (TrimSpace s) bom = true := (HasPrefix_iff _ _).2 ⟨r, h⟩
  have hd : (TrimSpace s).drop 3 = r := by
    rw [h, ← bom_length, List.drop_left']
    rfl
  rw [clean_eq, stripScannerPrefix_eq _ _ _ scannerPrefixes_ascii]
  simp only [unmarked, hb, if_true, hd, Option.map_some']

/-- C4, witness: the lines made of a byte-order mark followed by `abc` and by
`URL:x`. -/
theorem clean_bom_witness :
    clean caseRangesLatin (str "\uFEFFabc") = some (str "abc") ∧
      clean caseRangesLatin (str "\uFEFFURL:x") = some (str "x") :=
  ⟨(clean_bom caseRangesLatin (str "\uFEFFabc") (str "abc") (by decide)).trans (by decide),
    (clean_bom caseRangesLatin (str "\uFEFFURL:x") (str "URL:x") (by decide)).trans (by decide)⟩

/-- C7. Rule A: when the normalized line `L` starts with `http://localhost`, the only
call of `openURL` is the one of Rule A, with `L` itself, made when `L` passes
`isValidURL`; otherwise nothing is opened.  Rule B plays no part. -/
theorem localhost_rule (tbl : List CaseRange) (parse : Str → Option URL) (line L : Str)
    (hL : clean tbl line = some L) (hA : HasPrefix L (str "http://localhost") = true) :
    processScannedLine tbl parse line =
      some (if isValidURL parse L then [(Site.localhost, L)] else []) := by
  rw [processScannedLine_eq_opensOf tbl parse line L hL]
  simp only [opensOf, hA, if_true]

/-- C7, witness: the line `http://localhost:8080/callback` opens exactly itself. -/
theorem localhost_rule_witness :
    processScannedLine caseRangesLatin Parse (str "http://localhost:8080/callback") =
        some [(Site.localhost, str "http://localhost:8080/callback")] ∧
      opened (processScannedLine caseRangesLatin Parse (str "http://localhost:8080/callback")) =
        [str "http://localhost:8080/callback"] :=
  have h := localhost_rule caseRangesLatin Parse (str "http://localhost:8080/callback")
    (str "http://localhost:8080/callback") (by decide) (by decide)
  ⟨h.trans (by decide), by rw [h]; decide⟩

/-- C8. A line whose normalized form neither starts with `http://localhost` nor
contains `carbon.ms` in any letter case opens nothing. -/
theorem no_match_ignored (tbl : List CaseRange) (parse : Str → Option URL) (line L : Str)
    (hL : clean tbl line = some L) (hA : HasPrefix L (str "http://localhost") = false)
    (hB : Contains (ToLower tbl L) (str "carbon.ms") = false) :
    processScannedLine tbl parse line = some [] := by
  rw [processScannedLine_eq_opensOf tbl parse line L hL]
  simp only [opensOf, hA, hB, if_false, Bool.false_eq_true]

/-- C8, witness: the line `SCAN: hello world`. -/
theorem no_match_ignored_witness :
    processScannedLine caseRangesLatin Parse (str "SCAN: hello world") = some [] :=
  no_match_ignored caseRangesLatin Parse (str "SCAN: hello world") (str "hello world")
    (by decide) (by decide) (by decide)

/-- C5. Rule B(a): when the normalized line `L` does not start with `http://localhost`
and contains `carbon.ms` in some letter case, the calls of `openURL` begin with
one call of the explicit-URL branch for every match of `urlRegex` in `L`, from
left to right, that contains `carbon.ms` in some letter case and passes
`isValidURL`; when there is such a match nothing else is opened.  The matches
are those of a scan of `L` from left to right, each the leftmost one after the
match before it, so that they do not overlap; and each is `http://` or `https://`
followed by one or more bytes none of which is white space of the class `\s`
(tab, newline, form feed, carriage return, space), `<`, `>`, `"` or `'`. -/
theorem explicit_urls (tbl : List CaseRange) (parse : Str → Option URL) (line L : Str)
    (hL : clean tbl line = some L) (hA : HasPrefix L (str "http://localhost") = false)
    (hB : Contains (ToLower tbl L) (str "carbon.ms") = true) :
    (∃ more, processScannedLine tbl parse line =
        some (((FindAllString urlRegex L).filter
          (fun u => Contains (ToLower tbl u) (str "carbon.ms") && isValidURL parse u)).map
            (fun u => (Site.explicitURL, u)) ++ more)) ∧
      ((FindAllString urlRegex L).filter
          (fun u => Contains (ToLower tbl u) (str "carbon.ms") && isValidURL parse u) ≠ [] →
        processScannedLine tbl parse line =
          some (((FindAllString urlRegex L).filter
            (fun u => Contains (ToLower tbl u) (str "carbon.ms") && isValidURL parse u)).map
              (fun u => (Site.explicitURL, u)))) ∧
      Scan urlRegex (FindAllString urlRegex L) L ∧
      ∀ u ∈ FindAllString urlRegex L,
        ∃ body, (u = str "http://" ++ body ∨ u = str "https://" ++ body) ∧ body ≠ [] ∧
          ∀ b ∈ body, urlClass b = true := by
  refine ⟨?_, ?_, FindAllString_scan L, FindAllString_shape L⟩
  all_goals
    rw [processScannedLine_eq_opensOf tbl parse line L hL]
    simp only [opensOf, hA, hB, if_true, if_false, Bool.false_eq_true]
  · change ∃ more, some _ = some (((FindAllString urlRegex L).filter (opensExplicit tbl parse)).map
      (fun u => (Site.explicitURL, u)) ++ more)
    by_cases hE : ((FindAllString urlRegex L).filter (opensExplicit tbl parse)).isEmpty = true
    · have hnil : (FindAllString urlRegex L).filter (opensExplicit tbl parse) = [] := by
        simpa using hE
      rw [if_pos hE, hnil]
      exact ⟨_, rfl⟩
    · rw [if_neg hE]
      exact ⟨[], by simp⟩
  · change (FindAllString urlRegex L).filter (opensExplicit tbl parse) ≠ [] →
      some _ = some (((FindAllString urlRegex L).filter (opensExplicit tbl parse)).map
        (fun u => (Site.explicitURL, u)))
    intro hne
    rw [if_neg (by simpa using hne)]

/-- C5, witness: the line `go to https://app.carbon.ms/job/42 now` opens exactly
`https://app.carbon.ms/job/42`. -/
theorem explicit_urls_witness :
    processScannedLine caseRangesLatin Parse (str "go to https://app.carbon.ms/job/42 now") =
        some [(Site.explicitURL, str "https://app.carbon.ms/job/42")] ∧
      opened (processScannedLine caseRangesLatin Parse
        (str "go to https://app.carbon.ms/job/42 now")) = [str "https://app.carbon.ms/job/42"] :=
  have h := (explicit_urls caseRangesLatin Parse (str "go to https://app.carbon.ms/job/42 now")
    (str "go to https://app.carbon.ms/job/42 now") (by decide) (by decide) (by decide)).2.1
      (by decide)
  ⟨h.trans (by decide), by rw [h]; decide⟩

/-- C6. Rule B(b): when the normalized line `L` does not start with `http://localhost`,
contains `carbon.ms` in some letter case, and no match of `urlRegex` was opened,
then, if `carbonRe` matches in `L`, the one candidate is its leftmost match, with
`https://` in front unless it starts with `http://` or `https://`; the candidate
is opened exactly when it passes `isValidURL`, and nothing else is opened.  The
match is the preferred one at the leftmost position where `carbonRe` matches:
bytes of the class `[A-Za-z0-9\-\._]`, the literal `carbon.ms`, then bytes none of
which is white space of the class `\s`, `<`, `>`, `"` or `'`; there is none only
when `carbonRe` matches nowhere in `L`. -/
theorem fallback_reconstruction (tbl : List CaseRange) (parse : Str → Option URL)
    (line L : Str) (hL : clean tbl line = some L)
    (hA : HasPrefix L (str "http://localhost") = false)
    (hB : Contains (ToLower tbl L) (str "carbon.ms") = true)
    (hE : ∀ u ∈ FindAllString urlRegex L,
      (Contains (ToLower tbl u) (str "carbon.ms") && isValidURL parse u) = false) :
    processScannedLine tbl parse line =
        some (match FindStringSubmatch carbonRe L with
          | [] => []
          | m :: _ =>
            if isValidURL parse
                (if HasPrefix m (str "http://") || HasPrefix m (str "https://") then m
                  else str "https://" ++ m) then
              [(Site.fallback,
                if HasPrefix m (str "http://") || HasPrefix m (str "https://") then m
                  else str "https://" ++ m)]
            else []) ∧
      ((FindStringSubmatch carbonRe L = [] ∧ ∀ a b, L = a ++ b → carbonRe.ends b = []) ∨
        ∃ m pre rest, FindStringSubmatch carbonRe L = [m, m] ∧ L = pre ++ (m ++ rest) ∧
          (carbonRe.ends (m ++ rest)).head? = some rest ∧
          (∀ a b, pre = a ++ b → b ≠ [] → carbonRe.ends (b ++ (m ++ rest)) = []) ∧
          ∃ u1 u2, m = u1 ++ str "carbon.ms" ++ u2 ∧ (∀ b ∈ u1, hostClass b = true) ∧
            ∀ b ∈ u2, urlClass b = true) := by
  refine ⟨?_, FindStringSubmatch_carbonRe L⟩
  rw [processScannedLine_eq_opensOf tbl parse line L hL]
  have hnil : (FindAllString urlRegex L).filter (opensExplicit tbl parse) = [] := by
    rw [List.filter_eq_nil_iff]
    intro u hu
    have := hE u hu
    simp only [opensExplicit, this, Bool.false_eq_true, not_false_eq_true]
  simp only [opensOf, hA, hB, if_true, if_false, Bool.false_eq_true, hnil, List.isEmpty_nil]
  have hc : ∀ m : Str, candidateOf m =
      (if HasPrefix m (str "http://") || HasPrefix m (str "https://") then m
        else str "https://" ++ m) := by
    intro m
    unfold candidateOf
    by_cases h1 : HasPrefix m (str "http://") = true <;>
      by_cases h2 : HasPrefix m (str "https://") = true <;> simp [h1, h2]
  generalize FindStringSubmatch carbonRe L = ms
  cases ms with
  | nil => rfl
  | cons m rest => simp only [hc]

/-- C6, witness: the line `scan result: shop.carbon.ms/item?id=9` opens exactly
`https://shop.carbon.ms/item?id=9`. -/
theorem fallback_reconstruction_witness :
    processScannedLine caseRangesLatin Parse (str "scan result: shop.carbon.ms/item?id=9") =
        some [(Site.fallback, str "https://shop.carbon.ms/item?id=9")] ∧
      opened (processScannedLine caseRangesLatin Parse
        (str "scan result: shop.carbon.ms/item?id=9")) = [str "https://shop.carbon.ms/item?id=9"] :=
  have h := (fallback_reconstruction caseRangesLatin Parse
    (str "scan result: shop.carbon.ms/item?id=9") (str "scan result: shop.carbon.ms/item?id=9")
    (by decide) (by decide) (by decide) (by decide)).1
  ⟨h.trans (by decide), by rw [h]; decide⟩

theorem countP_map_site (site site1 : Site) (l : List Str) :
    (l.map (fun u => (site1, u))).countP (fun e => e.1 = site) = if site1 = site then l.length else 0 := by
  induction l with
  | nil => simp
  | cons u l ih =>
    rw [List.map_cons, List.countP_cons, ih]
    by_cases h : site1 = site <;> simp [h]

/-- C2, counterexample. The line `https://carbon.ms/a https://carbon.ms/b` makes two
calls of `openURL` in the explicit-URL branch of Rule B. -/
theorem two_explicit_opens :
    ¬ (opensAt Site.explicitURL (processScannedLine caseRangesLatin Parse
        (str "https://carbon.ms/a https://carbon.ms/b")) ≤ 1) := by
  decide

/-- C2, amended. For every line `processScannedLine` returns, and Rule A and the
fallback branch of Rule B each make at most one call of `openURL`; the explicit-URL branch makes at most one call for
each match of `urlRegex` in the normalized line, so possibly several; and a line
with a call of the explicit-URL branch has none of the fallback branch. -/
theorem opens_per_branch (tbl : List CaseRange) (parse : Str → Option URL) (line : Str) :
    (∃ evs, processScannedLine tbl parse line = some evs) ∧
      opensAt Site.localhost (processScannedLine tbl parse line) ≤ 1 ∧
      opensAt Site.fallback (processScannedLine tbl parse line) ≤ 1 ∧
      (∃ L, clean tbl line = some L ∧
        opensAt Site.explicitURL (processScannedLine tbl parse line) ≤
          (FindAllString urlRegex L).length) ∧
      (0 < opensAt Site.explicitURL (processScannedLine tbl parse line) →
        opensAt Site.fallback (processScannedLine tbl parse line) = 0) := by
  have hL := clean_eq tbl line
  rw [processScannedLine_eq_opensOf tbl parse line _ hL]
  generalize TrimRight (stripped tbl (unmarked line) scannerPrefixes) (str "\r\n\t ") = L at hL
  have hlen : ((FindAllString urlRegex L).filter (opensExplicit tbl parse)).length ≤
      (FindAllString urlRegex L).length := List.length_filter_le _ _
  have hcases : opensOf tbl parse L = [] ∨ opensOf tbl parse L = [(Site.localhost, L)] ∨
      (∃ c, opensOf tbl parse L = [(Site.fallback, c)]) ∨
      opensOf tbl parse L = ((FindAllString urlRegex L).filter (opensExplicit tbl parse)).map
        (fun u => (Site.explicitURL, u)) := by
    unfold opensOf
    split_ifs
    · exact Or.inr (Or.inl rfl)
    · exact Or.inl rfl
    · split
      · exact Or.inl rfl
      · split_ifs
        · exact Or.inr (Or.inr (Or.inl ⟨_, rfl⟩))
        · exact Or.inl rfl
    · exact Or.inr (Or.inr (Or.inr rfl))
    · exact Or.inl rfl
  refine ⟨⟨_, rfl⟩, ?_, ?_, ⟨L, hL, ?_⟩, ?_⟩
  all_goals
    simp only [opensAt]
    rcases hcases with h | h | ⟨c, h⟩ | h
    · rw [h]; simp
    · rw [h]; simp
    · rw [h]; simp
  · rw [h, countP_map_site]; simp
  · rw [h, countP_map_site]; simp
  · rw [h, countP_map_site]; simpa using hlen
  · rw [h, countP_map_site, countP_map_site]; simp

theorem Contains_candidateOf (m : Str) (h : Contains m (str "carbon.ms") = true) :
    Contains (candidateOf m) (str "carbon.ms") = true := by
  unfold candidateOf
  split_ifs
  · obtain ⟨a, b, hab⟩ := (Contains_iff _ _).1 h
    rw [Contains_iff]
    exact ⟨str "https://" ++ a, b, by rw [hab]; simp⟩
  · exact h

/-- C10. For every line `processScannedLine` returns, and every string it hands to
`openURL` starts with `http://localhost` or contains `carbon.ms` in some letter
case; and the capture of `carbonRe`, whatever the line, contains the literal
`carbon.ms`. -/
theorem opened_allow_list (tbl : List CaseRange) (parse : Str → Option URL) (line : Str) :
    (∃ evs, processScannedLine tbl parse line = some evs) ∧
      (∀ e ∈ opened (processScannedLine tbl parse line),
        HasPrefix e (str "http://localhost") = true ∨
          Contains (ToLower tbl e) (str "carbon.ms") = true) ∧
      (∀ c, (FindStringSubmatch carbonRe line).get? 1 = some c →
        Contains c (str "carbon.ms") = true) := by
  refine ⟨⟨_, processScannedLine_eq_opensOf tbl parse line _ (clean_eq tbl line)⟩, ?_, ?_⟩
  · have hL := clean_eq tbl line
    rw [processScannedLine_eq_opensOf tbl parse line _ hL]
    generalize TrimRight (stripped tbl (unmarked line) scannerPrefixes) (str "\r\n\t ") = L
    intro e he
    simp only [opened, List.mem_map] at he
    obtain ⟨ev, hev, rfl⟩ := he
    unfold opensOf at hev
    split_ifs at hev with hA hv hB hE
    · simp only [List.mem_singleton] at hev
      rw [hev]; exact Or.inl hA
    · simp at hev
    · right
      cases hF : FindStringSubmatch carbonRe L with
      | nil => rw [hF] at hev; simp at hev
      | cons m rest =>
        rw [hF] at hev
        simp only at hev
        split_ifs at hev
        · simp only [List.mem_singleton] at hev
          rw [hev]
          apply Contains_ToLower
          apply Contains_candidateOf
          exact FindStringSubmatch_carbon L m (by rw [hF]; simp)
        · simp at hev
    · right
      simp only [List.mem_map, List.mem_filter] at hev
      obtain ⟨u, ⟨_, hu⟩, rfl⟩ := hev
      simp only [opensExplicit, Bool.and_eq_true] at hu
      exact hu.1
    · simp at hev
  · intro c hc
    exact FindStringSubmatch_carbon line c (List.get?_mem hc)

end Serial
